import Mathlib

/-!
Verification of the belief-revision engine (belief_base.py, resolution.py,
belief_revision_cli.py) against its design specification.

Modelling conventions, used throughout:

* Formula texts are Lean `String`s, as in the Python code; the store is the
  list `BeliefBase.beliefs` of `(formula, entrenchment)` pairs.  Entrenchment
  is modelled as `Int` (the `Optional[int]`/`None` branch of the source is
  never exercised by any claim: every caller passes an integer or the
  default 50).
* `sympy.to_cnf(x, simplify=True)` (reached through `convert_to_cnf`) is an
  external library call.  It is modelled from its documented semantics as:
  parse the infix text (Python operator precedence: `~` binds tightest, then
  `>>`, then `&`, then `|`), convert to conjunctive normal form, canonicalise
  (sort and deduplicate literals and clauses by a fixed total order), and
  print back.  sympy additionally minimises the result and refuses
  simplification beyond 8 variables; neither affects any claim settled here
  and they are not modelled.
* Python exceptions are modelled with `Except`: an `Except.error` result means
  the exception propagated and the caller's store is untouched (CPython
  mutates `self.beliefs` only in completed statements).
* Python `set`s of clauses are modelled as duplicate-free lists in first
  insertion order; the concrete inputs evaluated below are chosen so that no
  result depends on set iteration order.
-/

/-- Error taxonomy of the engine: `ValueError` raised by normalisation
(`MalformedFormula` in the spec) and `ValueError` raised by lookups
(`NotFound` in the spec). -/
inductive BErr where
  | malformedFormula
  | notFound
  deriving DecidableEq, Repr

/-- Propositional formulas, the shape sympy expressions take for this code
base: atoms, negation, conjunction, disjunction, implication.  (The
biconditional is rewritten away by the CLI before any engine call and never
reaches the engine.) -/
inductive Formula where
  | atom (s : String)
  | neg (f : Formula)
  | conj (f g : Formula)
  | disj (f g : Formula)
  | impl (f g : Formula)
  deriving DecidableEq, Repr

/-- Truth-table evaluation of a formula under a valuation. -/
def evalF (v : String → Bool) : Formula → Bool
  | Formula.atom s => v s
  | Formula.neg f => !evalF v f
  | Formula.conj f g => evalF v f && evalF v g
  | Formula.disj f g => evalF v f || evalF v g
  | Formula.impl f g => !evalF v f || evalF v g

/-- The atoms occurring in a formula, with repetitions. -/
def atomsOf : Formula → List String
  | Formula.atom s => [s]
  | Formula.neg f => atomsOf f
  | Formula.conj f g => atomsOf f ++ atomsOf g
  | Formula.disj f g => atomsOf f ++ atomsOf g
  | Formula.impl f g => atomsOf f ++ atomsOf g

/-- A literal of the CNF representation: an atom name and a polarity. -/
structure Lit where
  name : String
  pos : Bool
  deriving DecidableEq, Repr

/-! ### A computable total order on literals and clauses

Mathlib's `String` order does not reduce in the kernel, so the canonical
order used by the normaliser is built from scratch: strict lexicographic
comparison of the underlying character lists, then of polarities, then of
literal lists.  It models the fixed canonical argument order sympy applies
when printing `And`/`Or` nodes (the exact sympy key is irrelevant to every
claim; only that the order is total and fixed matters). -/

/-- Strict comparison of characters through their code points. -/
def charLtB (a b : Char) : Bool := a.toNat < b.toNat

/-- Generic strict lexicographic order on lists induced by a strict order on
elements. -/
def lexLtB [DecidableEq α] (lt : α → α → Bool) : List α → List α → Bool
  | [], [] => false
  | [], _ :: _ => true
  | _ :: _, [] => false
  | a :: as, b :: bs => lt a b || (a == b && lexLtB lt as bs)

/-- Strict order on strings (through their character lists). -/
def strLtB (s t : String) : Bool := lexLtB charLtB s.data t.data

/-- Strict order on literals: by name, then positive-before-negated is
irrelevant as long as it is fixed; here `false < true` on the polarity. -/
def litLtB (a b : Lit) : Bool :=
  strLtB a.name b.name || (a.name == b.name && (!a.pos && b.pos))

/-- Strict lexicographic order on clauses (lists of literals). -/
def clLtB : List Lit → List Lit → Bool := lexLtB litLtB

/-- Reflexive closure of a strict Bool order. -/
def leOfLtB [DecidableEq α] (lt : α → α → Bool) (a b : α) : Bool :=
  lt a b || a == b

/-- The non-strict literal order used for sorting clauses. -/
def rLit (a b : Lit) : Prop := leOfLtB litLtB a b = true

/-- The non-strict clause order used for sorting CNF formulas. -/
def rCl (a b : List Lit) : Prop := leOfLtB clLtB a b = true

instance : DecidableRel rLit := fun a b => instDecidableEqBool (leOfLtB litLtB a b) true

instance : DecidableRel rCl := fun a b => instDecidableEqBool (leOfLtB clLtB a b) true

/-! ### Tokenizer

Models the lexical part of `sympy.sympify` for the operator vocabulary the
repository documents: `~`, `&`, `|`, `>>`, parentheses, identifiers.  A
pending identifier run is carried as an accumulator so that the recursion is
structural (and hence reduces in the kernel). -/

/-- Tokens of the formula grammar. -/
inductive Tok where
  | lpar
  | rpar
  | amp
  | bar
  | shr
  | tilde
  | ident (n : String)
  deriving DecidableEq, Repr

/-- Identifier start characters (Python identifiers). -/
def isIdentStart (c : Char) : Bool := c.isAlpha || c = '_'

/-- Identifier continuation characters. -/
def isIdentChar (c : Char) : Bool := c.isAlphanum || c = '_'

/-- Tokenizer state: an identifier run being read (possibly none), or a
just-seen `>` awaiting its partner. -/
inductive TokSt where
  | acc (pend : Option (List Char))
  | gt
  deriving DecidableEq, Repr

/-- Tokenize a character list.  Returns `none` on any character outside the
grammar (modelling a sympy parse failure). -/
def tokGo : TokSt → List Char → Option (List Tok)
  | TokSt.gt, [] => none
  | TokSt.gt, c :: cs =>
    if c = '>' then (tokGo (TokSt.acc none) cs).map (fun ts => Tok.shr :: ts)
    else none
  | TokSt.acc pend, [] =>
    match pend with
    | none => some []
    | some acc => some [Tok.ident ⟨acc⟩]
  | TokSt.acc pend, c :: cs =>
    if isIdentChar c then
      match pend with
      | some acc => tokGo (TokSt.acc (some (acc ++ [c]))) cs
      | none => if isIdentStart c then tokGo (TokSt.acc (some [c])) cs else none
    else
      let rest : Option (List Tok) :=
        if c = ' ' then tokGo (TokSt.acc none) cs
        else if c = '(' then (tokGo (TokSt.acc none) cs).map (fun ts => Tok.lpar :: ts)
        else if c = ')' then (tokGo (TokSt.acc none) cs).map (fun ts => Tok.rpar :: ts)
        else if c = '&' then (tokGo (TokSt.acc none) cs).map (fun ts => Tok.amp :: ts)
        else if c = '|' then (tokGo (TokSt.acc none) cs).map (fun ts => Tok.bar :: ts)
        else if c = '~' then (tokGo (TokSt.acc none) cs).map (fun ts => Tok.tilde :: ts)
        else if c = '>' then tokGo TokSt.gt cs
        else none
      match pend with
      | none => rest
      | some acc => rest.map (fun ts => Tok.ident ⟨acc⟩ :: ts)

/-- Tokenize a formula text. -/
def tokenize (s : String) : Option (List Tok) := tokGo (TokSt.acc none) s.data

/-! ### Parser

Recursive descent with Python's operator precedence (`|` loosest, then `&`,
then `>>`, then unary).  `lvl` is the precedence level (0 = `|`, 1 = `&`,
2 = `>>`, 3 = unary/primary); `acc = some f` means the parser is scanning
for another `lvl`-operator after having parsed `f`.  Fuel keeps the
recursion structural; `parseFuel` below always suffices. -/

/-- Does token `t` continue a chain at precedence level `lvl`? -/
def tokForLvl (lvl : Nat) (t : Tok) : Bool :=
  match lvl, t with
  | 0, Tok.bar => true
  | 1, Tok.amp => true
  | 2, Tok.shr => true
  | _, _ => false

/-- Combine two operands at precedence level `lvl` (left-associatively). -/
def combineLvl (lvl : Nat) (a b : Formula) : Formula :=
  match lvl with
  | 0 => Formula.disj a b
  | 1 => Formula.conj a b
  | _ => Formula.impl a b

/-- The parser.  Returns the parsed formula and the unconsumed tokens. -/
def parseL : Nat → Nat → Option Formula → List Tok → Option (Formula × List Tok)
  | 0, _, _, _ => none
  | fuel + 1, lvl, none, ts =>
    if lvl = 3 then
      match ts with
      | Tok.tilde :: rest =>
        (parseL fuel 3 none rest).map (fun fr => (Formula.neg fr.1, fr.2))
      | Tok.lpar :: rest =>
        match parseL fuel 0 none rest with
        | some (f, Tok.rpar :: r) => some (f, r)
        | _ => none
      | Tok.ident n :: rest => some (Formula.atom n, rest)
      | _ => none
    else
      match parseL fuel (lvl + 1) none ts with
      | some (f, rest) => parseL fuel lvl (some f) rest
      | none => none
  | fuel + 1, lvl, some acc, ts =>
    match ts with
    | [] => some (acc, [])
    | t :: rest =>
      if tokForLvl lvl t then
        match parseL fuel (lvl + 1) none rest with
        | some (g, rest2) => parseL fuel lvl (some (combineLvl lvl acc g)) rest2
        | none => none
      else some (acc, ts)

/-- Fuel that always suffices for `parseL` on `ts`. -/
def parseFuel (ts : List Tok) : Nat := 8 * ts.length + 8

/-- Parse a formula text (tokenize, parse, require full consumption).
Models `sympy.sympify` restricted to the Boolean grammar this repository
uses. -/
def parseFormula (s : String) : Option Formula :=
  match tokenize s with
  | none => none
  | some ts =>
    match parseL (parseFuel ts) 0 none ts with
    | some (f, []) => some f
    | _ => none

/-! ### CNF conversion and canonical printing -/

/-- All ways to join one clause of `a` with one clause of `b` (distribution
of disjunction over the two clause lists). -/
def distribOr (a b : List (List Lit)) : List (List Lit) :=
  a.flatMap (fun c => b.map (fun d => c ++ d))

/-- Clauses of the CNF of a formula (`b = true`) or of its negation
(`b = false`): implication elimination, negation pushing and distribution in
one structural pass. -/
def toClauses : Formula → Bool → List (List Lit)
  | Formula.atom s, b => [[⟨s, b⟩]]
  | Formula.neg f, b => toClauses f (!b)
  | Formula.conj f g, true => toClauses f true ++ toClauses g true
  | Formula.conj f g, false => distribOr (toClauses f false) (toClauses g false)
  | Formula.disj f g, true => distribOr (toClauses f true) (toClauses g true)
  | Formula.disj f g, false => toClauses f false ++ toClauses g false
  | Formula.impl f g, true => distribOr (toClauses f false) (toClauses g true)
  | Formula.impl f g, false => toClauses f true ++ toClauses g false

/-- Canonical form of one clause: sorted, duplicate-free literals. -/
def canonClause (cl : List Lit) : List Lit := (List.insertionSort rLit cl).dedup

/-- Canonical form of a clause list: canonical clauses, sorted and
duplicate-free. -/
def canonCnf (cs : List (List Lit)) : List (List Lit) :=
  (List.insertionSort rCl (cs.map canonClause)).dedup

/-- The canonical clauses of a formula. -/
def normClauses (f : Formula) : List (List Lit) := canonCnf (toClauses f true)

/-- Token string of one literal. -/
def litToks (l : Lit) : List Tok :=
  if l.pos then [Tok.ident l.name] else [Tok.tilde, Tok.ident l.name]

/-- Interleave a separator token between token runs. -/
def sepToks (sep : Tok) : List (List Tok) → List Tok
  | [] => []
  | [x] => x
  | x :: xs => x ++ sep :: sepToks sep xs

/-- Token string of one clause (no parentheses). -/
def clauseToks (cl : List Lit) : List Tok := sepToks Tok.bar (cl.map litToks)

/-- Token string of one clause as a conjunct: parenthesised unless it is a
single literal. -/
def clauseToksP (cl : List Lit) : List Tok :=
  match cl with
  | [_] => clauseToks cl
  | _ => Tok.lpar :: (clauseToks cl ++ [Tok.rpar])

/-- Token string of a clause list: a single clause prints bare, several
clauses print as parenthesised conjuncts. -/
def cnfToks (cs : List (List Lit)) : List Tok :=
  match cs with
  | [cl] => clauseToks cl
  | _ => sepToks Tok.amp (cs.map clauseToksP)

/-- Characters of one token, with the spacing sympy uses when printing. -/
def tokChars : Tok → List Char
  | Tok.lpar => ['(']
  | Tok.rpar => [')']
  | Tok.amp => [' ', '&', ' ']
  | Tok.bar => [' ', '|', ' ']
  | Tok.shr => ['>', '>']
  | Tok.tilde => ['~']
  | Tok.ident n => n.data

/-- Characters of a token string. -/
def toksChars : List Tok → List Char
  | [] => []
  | t :: ts => tokChars t ++ toksChars ts

/-- Print a clause list back to text. -/
def renderCnf (cs : List (List Lit)) : String := ⟨toksChars (cnfToks cs)⟩

/-- `BeliefBase.convert_to_cnf`: `str(to_cnf(belief, simplify=True))`,
wrapping any sympy failure in `ValueError` (`MalformedFormula`). -/
def convert_to_cnf (s : String) : Except BErr String :=
  match parseFormula s with
  | none => Except.error BErr.malformedFormula
  | some f => Except.ok (renderCnf (normClauses f))

/-! ### Belief store (`BeliefBase`) -/

/-- `BeliefBase.add_belief`: append `(belief, entrenchment)`; no check of any
kind. -/
def add_belief (belief : String) (entrenchment : Int)
    (beliefs : List (String × Int)) : List (String × Int) :=
  beliefs ++ [(belief, entrenchment)]

/-- `BeliefBase.remove_belief`: find the first entry whose formula text
equals the argument and `list.remove` it (which deletes the first
tuple-equal element); raise `ValueError` (`NotFound`) if no entry matches. -/
def remove_belief (belief : String)
    (beliefs : List (String × Int)) : Except BErr (List (String × Int)) :=
  match beliefs.find? (fun b => b.1 == belief) with
  | some b => Except.ok (beliefs.erase b)
  | none => Except.error BErr.notFound

/-- `BeliefBase.update_belief`: `remove_belief` then `add_belief`; the
exception from a failed removal propagates before the addition runs. -/
def update_belief (oldBelief newBelief : String) (entrenchment : Int)
    (beliefs : List (String × Int)) : Except BErr (List (String × Int)) :=
  match remove_belief oldBelief beliefs with
  | Except.error e => Except.error e
  | Except.ok bs => Except.ok (add_belief newBelief entrenchment bs)

/-- `BeliefBase.get_entrenchment`: linear scan, entrenchment of the first
matching entry, `ValueError` (`NotFound`) otherwise. -/
def get_entrenchment (belief : String) : List (String × Int) → Except BErr Int
  | [] => Except.error BErr.notFound
  | b :: bs => if b.1 = belief then Except.ok b.2 else get_entrenchment belief bs

/-- Removal of the first entry whose formula text matches: the specification
shape of `remove_belief`, used to state what the store operations do. -/
def eraseFirstMatch (belief : String) : List (String × Int) → List (String × Int)
  | [] => []
  | b :: bs => if b.1 = belief then bs else b :: eraseFirstMatch belief bs

/-- Modelled from the spec: `BeliefBase.expand` is called by the CLI, the
demo and both test suites but is absent from `belief_base.py`.  Section 4.2
of the spec defines it as: normalize, then append `(cnf, entrenchment)`; the
append behaviour is that of the present `add_belief`. -/
def expand (formula : String) (entrenchment : Int)
    (beliefs : List (String × Int)) : Except BErr (List (String × Int)) :=
  match convert_to_cnf formula with
  | Except.error e => Except.error e
  | Except.ok cnf => Except.ok (add_belief cnf entrenchment beliefs)

/-! ### `negate_formula` (resolution.py)

The function works on the raw query text: if the text contains a `&`
character anywhere it splits on every `&`, negates each piece and joins with
`|`; otherwise, if it contains `|`, dually; otherwise it just prepends `~`
(without parentheses).  The result is then normalised to CNF. -/

/-- Python `str.split(sep)` for a one-character separator. -/
def splitOnChar (sep : Char) : List Char → List (List Char)
  | [] => [[]]
  | c :: cs =>
    let rest := splitOnChar sep cs
    if c = sep then [] :: rest
    else
      match rest with
      | r :: rs => (c :: r) :: rs
      | [] => [[c]]

/-- Whitespace for Python `str.strip()`. -/
def isSpaceChar (c : Char) : Bool := c = ' ' || c = '\t' || c = '\n' || c = '\r'

/-- Python `str.strip()`. -/
def trimChars (cs : List Char) : List Char :=
  ((cs.dropWhile isSpaceChar).reverse.dropWhile isSpaceChar).reverse

/-- Python `sep.join(pieces)`. -/
def joinSep (sep : List Char) : List (List Char) → List Char
  | [] => []
  | [x] => x
  | x :: xs => x ++ sep ++ joinSep sep xs

/-- `negate_formula` from resolution.py: syntactic De-Morgan split on the
raw text, then `convert_to_cnf`. -/
def negate_formula (formula : String) : Except BErr String :=
  let negated : List Char :=
    if formula.data.any (fun c => c = '&') then
      joinSep [' ', '|', ' ']
        ((splitOnChar '&' formula.data).map (fun t => '~' :: trimChars t))
    else if formula.data.any (fun c => c = '|') then
      joinSep [' ', '&', ' ']
        ((splitOnChar '|' formula.data).map (fun t => '~' :: trimChars t))
    else '~' :: formula.data
  convert_to_cnf ⟨negated⟩

/-! ### Resolution engine (resolution.py)

The working clause set mixes raw strings (the stored belief texts and the
negated query) with sympy expressions (resolvents); both are kept, as in the
source, because the Python `set` distinguishes them.  sympy expressions are
`Formula` values.  `resolve` first converts both sides with
`to_cnf(_, simplify=True)`; the recursive descent into conjunctions does not
re-normalise (in the source the re-entrant `to_cnf` is the identity on the
already-canonical conjuncts it receives). -/

/-- A member of the working clause set: a raw text or a sympy expression. -/
inductive ClauseRep where
  | raw (s : String)
  | expr (f : Formula)
  deriving DecidableEq, Repr

/-- sympy literal (or unit) as a formula. -/
def litFormula (l : Lit) : Formula :=
  if l.pos then Formula.atom l.name else Formula.neg (Formula.atom l.name)

/-- Left-nested chain of a binary connective, as the parser builds and as
sympy flattens. -/
def chainOp (op : Formula → Formula → Formula) (f : Formula) (gs : List Formula) :
    Formula :=
  gs.foldl op f

/-- A clause as a disjunction formula. -/
def clauseFormula : List Lit → Formula
  | [] => Formula.atom "True"
  | l :: ls => chainOp Formula.disj (litFormula l) (ls.map litFormula)

/-- A clause list as a conjunction formula. -/
def cnfFormula : List (List Lit) → Formula
  | [] => Formula.atom "True"
  | c :: cs => chainOp Formula.conj (clauseFormula c) (cs.map clauseFormula)

/-- `to_cnf(clause, simplify=True)` on a clause-set member: parse raw text
(raising `ValueError` on failure), then canonical CNF as an expression. -/
def toCnfE : ClauseRep → Except BErr Formula
  | ClauseRep.raw s =>
    match parseFormula s with
    | none => Except.error BErr.malformedFormula
    | some f => Except.ok (cnfFormula (normClauses f))
  | ClauseRep.expr f => Except.ok (cnfFormula (normClauses f))

/-- Add to a Python `set` modelled as a duplicate-free list in insertion
order. -/
def insertAbsent [DecidableEq α] (xs : List α) (x : α) : List α :=
  if x ∈ xs then xs else xs ++ [x]

/-- Union of two such sets. -/
def unionAbsent [DecidableEq α] (xs ys : List α) : List α :=
  ys.foldl insertAbsent xs

/-- `get_literals`: atoms and negated atoms are literals, disjunctions are
unions, anything else (conjunctions included) is one opaque unit. -/
def get_literals : Formula → List Formula
  | Formula.atom s => [Formula.atom s]
  | Formula.neg (Formula.atom s) => [Formula.neg (Formula.atom s)]
  | Formula.disj a b => unionAbsent (get_literals a) (get_literals b)
  | f => [f]

/-- Outcome of one `resolve` call: `None`, the empty clause `""`, or a
resolvent expression. -/
inductive RRes where
  | noRes
  | empty
  | clause (f : Formula)
  deriving DecidableEq, Repr

/-- In the source: scan `literals2` for the complement of one literal. -/
def complement2 (lits2 : List Formula) (l : Formula) : Option Formula :=
  match l with
  | Formula.neg (Formula.atom s) =>
    if Formula.atom s ∈ lits2 then some (Formula.atom s) else none
  | Formula.atom s =>
    if Formula.neg (Formula.atom s) ∈ lits2 then some (Formula.neg (Formula.atom s)) else none
  | _ => none

/-- Build the resolvent once a complementary pair `(l, l2)` is found. -/
def buildRes (lits1 lits2 : List Formula) (l l2 : Formula) : RRes :=
  let r1 := lits1.filter (fun x => x != l)
  let r2 := lits2.filter (fun x => x != l2)
  match unionAbsent r1 r2 with
  | [] => RRes.empty
  | [x] => RRes.clause x
  | x :: xs => RRes.clause (chainOp Formula.disj x xs)

/-- Scan the literals of clause 1 for the first complementary pair. -/
def litResolveGo (all1 lits2 : List Formula) : List Formula → RRes
  | [] => RRes.noRes
  | l :: rest =>
    match complement2 lits2 l with
    | some l2 => buildRes all1 lits2 l l2
    | none => litResolveGo all1 lits2 rest

/-- Resolution of two disjunction-or-literal clauses. -/
def litResolve (lits1 lits2 : List Formula) : RRes := litResolveGo lits1 lits2 lits1

/-- Structural size of a formula (drives the fuel of `resolveCnfGo`). -/
def sizeF : Formula → Nat
  | Formula.atom _ => 1
  | Formula.neg f => sizeF f + 1
  | Formula.conj f g => sizeF f + sizeF g + 1
  | Formula.disj f g => sizeF f + sizeF g + 1
  | Formula.impl f g => sizeF f + sizeF g + 1

/-- The recursive core of `resolve`: descend into conjunctions, first
non-`None` result wins; otherwise resolve on literals.  The fuel given by
`resolve` strictly exceeds the recursion depth, so the `0` case is never
reached. -/
def resolveCnfGo : Nat → Formula → Formula → RRes
  | 0, _, _ => RRes.noRes
  | fuel + 1, c1, c2 =>
    match c1, c2 with
    | Formula.conj a b, _ =>
      match resolveCnfGo fuel a c2 with
      | RRes.empty => RRes.empty
      | RRes.clause f => RRes.clause f
      | RRes.noRes => resolveCnfGo fuel b c2
    | _, Formula.conj a b =>
      match resolveCnfGo fuel c1 a with
      | RRes.empty => RRes.empty
      | RRes.clause f => RRes.clause f
      | RRes.noRes => resolveCnfGo fuel c1 b
    | _, _ => litResolve (get_literals c1) (get_literals c2)

/-- `resolve(clause1, clause2, belief_base)`: normalise both sides, then
resolve.  Parse failures raise `ValueError` out of the function. -/
def resolve (c1 c2 : ClauseRep) : Except BErr RRes :=
  match toCnfE c1 with
  | Except.error e => Except.error e
  | Except.ok e1 =>
    match toCnfE c2 with
    | Except.error e => Except.error e
    | Except.ok e2 => Except.ok (resolveCnfGo (sizeF e1 + sizeF e2 + 1) e1 e2)

/-- Inner pair loop of `resolution`: resolve `c` against each later clause,
collecting resolvents; `none` signals that the empty clause was derived. -/
def scanWith (c : ClauseRep) (acc : List ClauseRep) :
    List ClauseRep → Except BErr (Option (List ClauseRep))
  | [] => Except.ok (some acc)
  | d :: ds =>
    match resolve c d with
    | Except.error e => Except.error e
    | Except.ok RRes.noRes => scanWith c acc ds
    | Except.ok RRes.empty => Except.ok none
    | Except.ok (RRes.clause f) => scanWith c (insertAbsent acc (ClauseRep.expr f)) ds

/-- Outer pair loop: all unordered pairs `i < j`. -/
def outerScan (acc : List ClauseRep) : List ClauseRep → Except BErr (Option (List ClauseRep))
  | [] => Except.ok (some acc)
  | c :: cs =>
    match scanWith c acc cs with
    | Except.error e => Except.error e
    | Except.ok none => Except.ok none
    | Except.ok (some acc2) => outerScan acc2 cs

/-- The `while True` saturation loop of `resolution`: one pass over all
pairs; the empty clause short-circuits to `True`; no growth of the clause
set terminates with `False`.  `Except.ok none` marks fuel exhaustion, which
none of the runs below reaches. -/
def resolutionLoop : Nat → List ClauseRep → Except BErr (Option Bool)
  | 0, _ => Except.ok none
  | fuel + 1, clauses =>
    match outerScan [] clauses with
    | Except.error e => Except.error e
    | Except.ok none => Except.ok (some true)
    | Except.ok (some newCs) =>
      let updated := unionAbsent clauses newCs
      if updated.length = clauses.length then Except.ok (some false)
      else resolutionLoop fuel updated

/-- The `try`-block of `resolution`: build the initial clause set (stored
texts, deduplicated, plus the negated query) and saturate. -/
def resolutionBody (beliefs : List (String × Int)) (negated : String) :
    Except BErr (Option Bool) :=
  let initial :=
    insertAbsent ((beliefs.map (fun b => ClauseRep.raw b.1)).foldl insertAbsent [])
      (ClauseRep.raw negated)
  resolutionLoop 1000 initial

/-- `resolution(belief_base, negated_formula)`: any exception from the body
is caught, a message is printed, and `False` is returned. -/
def resolution (beliefs : List (String × Int)) (negated : String) : Bool :=
  match resolutionBody beliefs negated with
  | Except.ok (some b) => b
  | Except.ok none => false
  | Except.error _ => false

/-- The entailment check as every caller performs it (main.py and the CLI):
`negate_formula`, then `resolution`.  An exception from `negate_formula`
propagates to the caller. -/
def entails (beliefs : List (String × Int)) (f : String) : Except BErr Bool :=
  match negate_formula f with
  | Except.error e => Except.error e
  | Except.ok neg => Except.ok (resolution beliefs neg)

/-! ### `_entails` and `contraction` (belief_base.py) -/

/-- Point update of a valuation. -/
def updateVal (v : String → Bool) (a : String) (x : Bool) : String → Bool :=
  fun s => if s = a then x else v s

/-- All valuations over a finite atom list. -/
def allVals : List String → List (String → Bool)
  | [] => [fun _ => false]
  | a :: as => (allVals as).flatMap (fun v => [updateVal v a false, updateVal v a true])

/-- `sympy.satisfiable` on a formula, by brute force over its atoms. -/
def satisfiableB (f : Formula) : Bool :=
  (allVals (atomsOf f).dedup).any (fun v => evalF v f)

/-- `BeliefBase._parse_belief`: the body first reads
`self._operator_mapping`, an attribute that is never assigned anywhere in
the class, so every call raises `AttributeError` inside the `try` block and
is re-raised as `ValueError` (the body also calls `parse_mathematica`,
which is never imported).  Faithfully modelled as always failing. -/
def parse_belief (_belief : String) : Except BErr Formula :=
  Except.error BErr.malformedFormula

/-- Right-nested conjunction of premises in front of a final formula, as
`And(*expressions, negation_of_belief)` builds. -/
def andChain : List Formula → Formula → Formula
  | [], g => g
  | f :: fs, g => Formula.conj f (andChain fs g)

/-- `BeliefBase._entails`: parse every stored formula, skipping failures
with a warning; with no parsed expressions return `False`; otherwise parse
the query (returning `False` on failure) and ask sympy whether premises
plus negated query are unsatisfiable.  Because `_parse_belief` always
fails, the expression list is always empty. -/
def entailsInternal (belief : String) (checkBase : List (String × Int)) : Bool :=
  let expressions := checkBase.filterMap (fun b => (parse_belief b.1).toOption)
  if expressions.isEmpty then false
  else
    match parse_belief belief with
    | Except.error _ => false
    | Except.ok f => !satisfiableB (andChain expressions (Formula.neg f))

/-- The iterative removal loop of `contraction` (source lines 109-120):
walk the entrenchment-sorted entries; skip the target; for an entry at most
as entrenched as the target, tentatively drop it and, if the base would
still entail the target, drop it for good — otherwise stop and return the
kept entries (the source then removes the target and returns on both the
early-return path and the fall-through path). -/
def contractionScan (target : String) (tEnt : Int) (keep : List (String × Int)) :
    List (String × Int) → List (String × Int)
  | [] => keep
  | (b, ent) :: rest =>
    if b = target then contractionScan target tEnt keep rest
    else if ent ≤ tEnt then
      if entailsInternal target (keep.filter (fun item => item.1 != b)) then
        contractionScan target tEnt (keep.erase (b, ent)) rest
      else keep
    else contractionScan target tEnt keep rest

/-- `BeliefBase.contraction`: `ValueError` (`NotFound`) when the formula is
not stored; if `_entails` denies entailment, just remove the entry;
otherwise run the entrenchment-ordered removal loop and remove the target
at the end.  (The sort key treats a `None` entrenchment as infinity; the
`Optional` branch is not modelled because every claim uses integers.) -/
def contraction (beliefToRemove : String)
    (beliefs : List (String × Int)) : Except BErr (List (String × Int)) :=
  if !(beliefs.any (fun b => b.1 == beliefToRemove)) then Except.error BErr.notFound
  else if !(entailsInternal beliefToRemove beliefs) then
    remove_belief beliefToRemove beliefs
  else
    match get_entrenchment beliefToRemove beliefs with
    | Except.error e => Except.error e
    | Except.ok tEnt =>
      let sortedBeliefs := List.insertionSort (fun a b => a.2 ≤ b.2) beliefs
      remove_belief beliefToRemove
        (contractionScan beliefToRemove tEnt beliefs sortedBeliefs)

/-- The truth-table entailment oracle of the spec (section 8): brute-force
evaluation of "every assignment satisfying all of `B` also satisfies `f`"
over the atoms of `B` and `f`; `none` when some text does not parse. -/
def truthTableEntails (beliefs : List (String × Int)) (f : String) : Option Bool :=
  match beliefs.mapM (fun b => parseFormula b.1), parseFormula f with
  | some fs, some g =>
    let atoms := ((fs.map atomsOf).flatten ++ atomsOf g).dedup
    some ((allVals atoms).all (fun v => !(fs.all (evalF v)) || evalF v g))
  | _, _ => none

/-! ### Spec-modelled contraction and revision

`BeliefBase.contract` and `BeliefBase.revise` are called by the CLI, the
demo and both test suites but are absent from `belief_base.py`; they are
modelled here from sections 4.4 and 4.5 of the spec, at the expression
level, with `entails` taken as semantic entailment (the contract the spec
gives its Resolution Engine in sections 4.3 and 8). -/

/-- Semantic entailment of `f` by `premises`, decided by brute force over
the atoms occurring in them. -/
def semEntails (premises : List Formula) (f : Formula) : Bool :=
  let atoms := ((premises.map atomsOf).flatten ++ atomsOf f).dedup
  (allVals atoms).all (fun v => !(premises.all (evalF v)) || evalF v f)

/-- All sublists of a list (each keeping the original order). -/
def subsetsOf : List (Formula × Int) → List (List (Formula × Int))
  | [] => [[]]
  | x :: xs => subsetsOf xs ++ (subsetsOf xs).map (fun s => x :: s)

/-- Modelled from the spec (section 4.4 step 2): every non-empty subset of
the beliefs, smallest subsets first. -/
def subsetsBySize (bs : List (Formula × Int)) : List (List (Formula × Int)) :=
  ((List.range bs.length).map
    (fun k => (subsetsOf bs).filter (fun s => s.length == k + 1))).flatten

/-- Sum of the entrenchment values of a subset. -/
def entSum (s : List (Formula × Int)) : Int := (s.map (fun b => b.2)).foldl (· + ·) 0

/-- Modelled from the spec (section 4.4 step 3): strictly better means
smaller entrenchment sum, ties broken by smaller size; anything else keeps
the subset found first. -/
def betterSubset (a b : List (Formula × Int)) : Bool :=
  decide (entSum a < entSum b) ||
    (entSum a == entSum b && decide (a.length < b.length))

/-- Fold that keeps the earliest best subset. -/
def selectBestGo (best : List (Formula × Int)) :
    List (List (Formula × Int)) → List (Formula × Int)
  | [] => best
  | s :: rest =>
    if betterSubset s best then selectBestGo s rest else selectBestGo best rest

/-- The selected subset, or `none` when no subset was successful. -/
def selectBest : List (List (Formula × Int)) → Option (List (Formula × Int))
  | [] => none
  | s :: rest => some (selectBestGo s rest)

/-- Modelled from the spec: `contract(base, formula)` (section 4.4, absent
from belief_base.py): vacuity when the base does not entail the formula;
otherwise remove the best successful subset; when no subset is successful,
leave the base unchanged and report `ContractionImpossible` (the `Bool`
component). -/
def contractSpec (bs : List (Formula × Int)) (f : Formula) :
    List (Formula × Int) × Bool :=
  if !(semEntails (bs.map (fun b => b.1)) f) then (bs, false)
  else
    let successful := (subsetsBySize bs).filter
      (fun s => !(semEntails ((bs.diff s).map (fun b => b.1)) f))
    match selectBest successful with
    | some s => (bs.diff s, false)
    | none => (bs, true)

/-- Modelled from the spec (section 4.3 step 1, at the expression level):
negate the query, expanding a top-level conjunction or disjunction by De
Morgan, otherwise simple negation. -/
def negSpec : Formula → Formula
  | Formula.conj a b => Formula.disj (Formula.neg a) (Formula.neg b)
  | Formula.disj a b => Formula.conj (Formula.neg a) (Formula.neg b)
  | f => Formula.neg f

/-- Modelled from the spec: `expand` at the expression level (section 4.2:
normalise, append). -/
def expandSpecF (bs : List (Formula × Int)) (f : Formula) (e : Int) :
    List (Formula × Int) :=
  bs ++ [(cnfFormula (normClauses f), e)]

/-- Modelled from the spec: `revise(formula, entrenchment)` (section 4.5,
absent from belief_base.py): contraction by the negation, then expansion —
the Levi identity. -/
def reviseSpec (bs : List (Formula × Int)) (f : Formula) (e : Int) :
    List (Formula × Int) :=
  expandSpecF (contractSpec bs (negSpec f)).1 f e

/-- Truth value of one literal. -/
def litEval (v : String → Bool) (l : Lit) : Bool :=
  if l.pos then v l.name else !(v l.name)

/-- Truth value of a clause list read as a conjunction of disjunctions. -/
def evalCnf (v : String → Bool) (cs : List (List Lit)) : Bool :=
  cs.all (fun cl => cl.any (fun l => litEval v l))

/-! ### Definitions supporting the round-trip development (claim C7)

Well-formedness of printed identifiers and tokens, the token tails of
printed clauses, the tokenizer-state rank and invariant, and the fuel
accounting of the parser on canonically printed clauses. -/

/-- Well-formed identifier content, as a character list. -/
def wfAccB : List Char → Bool
  | [] => false
  | c :: cs => isIdentStart c && cs.all isIdentChar

/-- Well-formed identifier name. -/
def wfNameB (s : String) : Bool := wfAccB s.data

/-- The token list does not begin with an identifier. -/
def noIdentHead : List Tok → Bool
  | Tok.ident _ :: _ => false
  | _ => true

/-- Token lists that print and re-tokenize exactly: identifiers are
well-formed and no two identifiers are adjacent. -/
def toksOkB : List Tok → Bool
  | [] => true
  | Tok.ident n :: rest => wfNameB n && noIdentHead rest && toksOkB rest
  | _ :: rest => toksOkB rest

/-- The tokens of a clause after its first literal. -/
def clauseTailToks : List Lit → List Tok
  | [] => []
  | l :: ls => Tok.bar :: (litToks l ++ clauseTailToks ls)

/-- The tokens of a clause list after its first clause. -/
def cnfTailToks : List (List Lit) → List Tok
  | [] => []
  | cl :: cs => Tok.amp :: (clauseToksP cl ++ cnfTailToks cs)

/-- Rank used to justify the induction over tokenizer states. -/
def tokStRank : TokSt → Nat
  | TokSt.acc none => 0
  | TokSt.acc (some _) => 1
  | TokSt.gt => 0

/-- Invariant carried by the tokenizer state. -/
def tokStInv : TokSt → Prop
  | TokSt.acc (some acc) => wfAccB acc = true
  | _ => True

/-- Parsing at level `lvl` stops in front of this token list. -/
def tokStops (lvl : Nat) : List Tok → Bool
  | [] => true
  | t :: _ => !tokForLvl lvl t

/-- Fuel consumed by the conjunct loop over the trailing clauses. -/
def andCost (cs : List (List Lit)) : Nat :=
  cs.foldr (fun cl n => n + 7 * cl.length + 4) 1

/-- Fuel consumed by a whole top-level parse of printed clauses. -/
def topCost : List (List Lit) → Nat
  | [] => 0
  | [c] => 7 * c.length + 1
  | c :: cs => 7 * c.length + andCost cs + 5

/-! ### Soundness of the modelled normaliser

`cnfFormula (normClauses f)` has the same truth table as `f`; this backs
the spec-modelled `expand` and the equivalence parts of the claims. -/

theorem all_eq_of_mem_iff {α : Type} {l₁ l₂ : List α} {p : α → Bool}
    (h : ∀ x, x ∈ l₁ ↔ x ∈ l₂) : l₁.all p = l₂.all p := by
  rw [Bool.eq_iff_iff, List.all_eq_true, List.all_eq_true]
  constructor
  · intro ha x hx
    exact ha x ((h x).mpr hx)
  · intro ha x hx
    exact ha x ((h x).mp hx)

theorem all_congrB {α : Type} {l : List α} {p q : α → Bool}
    (h : ∀ x ∈ l, p x = q x) : l.all p = l.all q := by
  induction l with
  | nil => rfl
  | cons a l ih =>
    rw [List.all_cons, List.all_cons, h a (by simp),
      ih (fun x hx => h x (by simp [hx]))]

theorem any_congrB {α : Type} {l : List α} {p q : α → Bool}
    (h : ∀ x ∈ l, p x = q x) : l.any p = l.any q := by
  induction l with
  | nil => rfl
  | cons a l ih =>
    rw [List.any_cons, List.any_cons, h a (by simp),
      ih (fun x hx => h x (by simp [hx]))]

theorem any_eq_of_mem_iff {α : Type} {l₁ l₂ : List α} {p : α → Bool}
    (h : ∀ x, x ∈ l₁ ↔ x ∈ l₂) : l₁.any p = l₂.any p := by
  rw [Bool.eq_iff_iff, List.any_eq_true, List.any_eq_true]
  constructor
  · rintro ⟨x, hx, hp⟩
    exact ⟨x, (h x).mp hx, hp⟩
  · rintro ⟨x, hx, hp⟩
    exact ⟨x, (h x).mpr hx, hp⟩

theorem mem_canonClause {x : Lit} {cl : List Lit} : x ∈ canonClause cl ↔ x ∈ cl := by
  unfold canonClause
  rw [List.mem_dedup, (List.perm_insertionSort rLit cl).mem_iff]

theorem mem_canonCnf {c : List Lit} {cs : List (List Lit)} :
    c ∈ canonCnf cs ↔ c ∈ cs.map canonClause := by
  unfold canonCnf
  rw [List.mem_dedup, (List.perm_insertionSort rCl (cs.map canonClause)).mem_iff]

theorem evalCnf_canonCnf (v : String → Bool) (cs : List (List Lit)) :
    evalCnf v (canonCnf cs) = evalCnf v cs := by
  unfold evalCnf
  rw [all_eq_of_mem_iff (fun c => mem_canonCnf), List.all_map]
  apply all_congrB
  intro cl _
  exact any_eq_of_mem_iff (fun x => mem_canonClause)

theorem evalCnf_append (v : String → Bool) (a b : List (List Lit)) :
    evalCnf v (a ++ b) = (evalCnf v a && evalCnf v b) := by
  simp [evalCnf, List.all_append]

theorem evalCnf_distribOr (v : String → Bool) (a b : List (List Lit)) :
    evalCnf v (distribOr a b) = (evalCnf v a || evalCnf v b) := by
  induction a with
  | nil => simp [distribOr, evalCnf]
  | cons c a ih =>
    have hstep : ∀ d : List Lit,
        (c ++ d).any (fun l => litEval v l) =
          (c.any (fun l => litEval v l) || d.any (fun l => litEval v l)) := by
      intro d
      simp [List.any_append]
    have hmap : evalCnf v (b.map (fun d => c ++ d)) =
        (c.any (fun l => litEval v l) || evalCnf v b) := by
      unfold evalCnf
      rw [List.all_map]
      show b.all (fun d => (c ++ d).any fun l => litEval v l) =
        ((c.any fun l => litEval v l) || b.all fun cl => cl.any fun l => litEval v l)
      rw [all_congrB (fun d _ => hstep d)]
      cases hc : c.any (fun l => litEval v l) with
      | true => simp [hc]
      | false => simp [hc]
    have hd : distribOr (c :: a) b = b.map (fun d => c ++ d) ++ distribOr a b := by
      simp [distribOr]
    have hcons : evalCnf v (c :: a) =
        (c.any (fun l => litEval v l) && evalCnf v a) := rfl
    rw [hd, evalCnf_append, hmap, ih, hcons]
    cases h1 : c.any (fun l => litEval v l) <;>
      cases h2 : evalCnf v a <;> cases h3 : evalCnf v b <;> rfl

theorem evalCnf_toClauses (v : String → Bool) :
    ∀ (f : Formula) (b : Bool), evalCnf v (toClauses f b) = (evalF v f == b)
  | Formula.atom s, b => by
    simp only [toClauses, evalCnf, evalF, List.all_cons, List.any_cons,
      List.all_nil, List.any_nil, litEval]
    cases b <;> cases v s <;> rfl
  | Formula.neg f, b => by
    rw [toClauses, evalCnf_toClauses v f (!b)]
    simp only [evalF]
    cases b <;> cases evalF v f <;> rfl
  | Formula.conj f g, true => by
    rw [toClauses, evalCnf_append, evalCnf_toClauses v f true,
      evalCnf_toClauses v g true]
    simp only [evalF]
    cases evalF v f <;> cases evalF v g <;> rfl
  | Formula.conj f g, false => by
    rw [toClauses, evalCnf_distribOr, evalCnf_toClauses v f false,
      evalCnf_toClauses v g false]
    simp only [evalF]
    cases evalF v f <;> cases evalF v g <;> rfl
  | Formula.disj f g, true => by
    rw [toClauses, evalCnf_distribOr, evalCnf_toClauses v f true,
      evalCnf_toClauses v g true]
    simp only [evalF]
    cases evalF v f <;> cases evalF v g <;> rfl
  | Formula.disj f g, false => by
    rw [toClauses, evalCnf_append, evalCnf_toClauses v f false,
      evalCnf_toClauses v g false]
    simp only [evalF]
    cases evalF v f <;> cases evalF v g <;> rfl
  | Formula.impl f g, true => by
    rw [toClauses, evalCnf_distribOr, evalCnf_toClauses v f false,
      evalCnf_toClauses v g true]
    simp only [evalF]
    cases evalF v f <;> cases evalF v g <;> rfl
  | Formula.impl f g, false => by
    rw [toClauses, evalCnf_append, evalCnf_toClauses v f true,
      evalCnf_toClauses v g false]
    simp only [evalF]
    cases evalF v f <;> cases evalF v g <;> rfl

theorem distribOr_ne_nil {a b : List (List Lit)} (ha : a ≠ []) (hb : b ≠ []) :
    distribOr a b ≠ [] := by
  cases a with
  | nil => exact absurd rfl ha
  | cons c a =>
    cases b with
    | nil => exact absurd rfl hb
    | cons d b => simp [distribOr]

theorem mem_distribOr {cl : List Lit} {a b : List (List Lit)}
    (h : cl ∈ distribOr a b) : ∃ c d, c ∈ a ∧ d ∈ b ∧ cl = c ++ d := by
  unfold distribOr at h
  rw [List.mem_flatMap] at h
  obtain ⟨c, hc, hcl⟩ := h
  rw [List.mem_map] at hcl
  obtain ⟨d, hd, hcl⟩ := hcl
  exact ⟨c, d, hc, hd, hcl.symm⟩

theorem toClauses_ne_nil : ∀ (f : Formula) (b : Bool), toClauses f b ≠ []
  | Formula.atom _, _ => by simp [toClauses]
  | Formula.neg f, b => by
    rw [toClauses]
    exact toClauses_ne_nil f (!b)
  | Formula.conj f g, true => by
    rw [toClauses]
    exact List.append_ne_nil_of_left_ne_nil (toClauses_ne_nil f true) _
  | Formula.conj f g, false => by
    rw [toClauses]
    exact distribOr_ne_nil (toClauses_ne_nil f false) (toClauses_ne_nil g false)
  | Formula.disj f g, true => by
    rw [toClauses]
    exact distribOr_ne_nil (toClauses_ne_nil f true) (toClauses_ne_nil g true)
  | Formula.disj f g, false => by
    rw [toClauses]
    exact List.append_ne_nil_of_left_ne_nil (toClauses_ne_nil f false) _
  | Formula.impl f g, true => by
    rw [toClauses]
    exact distribOr_ne_nil (toClauses_ne_nil f false) (toClauses_ne_nil g true)
  | Formula.impl f g, false => by
    rw [toClauses]
    exact List.append_ne_nil_of_left_ne_nil (toClauses_ne_nil f true) _

theorem mem_toClauses_ne_nil :
    ∀ (f : Formula) (b : Bool) (cl : List Lit), cl ∈ toClauses f b → cl ≠ []
  | Formula.atom s, b, cl, h => by
    rw [toClauses] at h
    simp only [List.mem_singleton] at h
    subst h
    simp
  | Formula.neg f, b, cl, h => by
    rw [toClauses] at h
    exact mem_toClauses_ne_nil f (!b) cl h
  | Formula.conj f g, true, cl, h => by
    rw [toClauses, List.mem_append] at h
    cases h with
    | inl h => exact mem_toClauses_ne_nil f true cl h
    | inr h => exact mem_toClauses_ne_nil g true cl h
  | Formula.conj f g, false, cl, h => by
    rw [toClauses] at h
    obtain ⟨c, d, hc, _, rfl⟩ := mem_distribOr h
    exact List.append_ne_nil_of_left_ne_nil (mem_toClauses_ne_nil f false c hc) _
  | Formula.disj f g, true, cl, h => by
    rw [toClauses] at h
    obtain ⟨c, d, hc, _, rfl⟩ := mem_distribOr h
    exact List.append_ne_nil_of_left_ne_nil (mem_toClauses_ne_nil f true c hc) _
  | Formula.disj f g, false, cl, h => by
    rw [toClauses, List.mem_append] at h
    cases h with
    | inl h => exact mem_toClauses_ne_nil f false cl h
    | inr h => exact mem_toClauses_ne_nil g false cl h
  | Formula.impl f g, true, cl, h => by
    rw [toClauses] at h
    obtain ⟨c, d, hc, _, rfl⟩ := mem_distribOr h
    exact List.append_ne_nil_of_left_ne_nil (mem_toClauses_ne_nil f false c hc) _
  | Formula.impl f g, false, cl, h => by
    rw [toClauses, List.mem_append] at h
    cases h with
    | inl h => exact mem_toClauses_ne_nil f true cl h
    | inr h => exact mem_toClauses_ne_nil g false cl h

theorem canonClause_ne_nil {cl : List Lit} (h : cl ≠ []) : canonClause cl ≠ [] := by
  obtain ⟨x, hx⟩ := List.exists_mem_of_ne_nil cl h
  exact List.ne_nil_of_mem (mem_canonClause.mpr hx)

theorem canonCnf_ne_nil {cs : List (List Lit)} (h : cs ≠ []) : canonCnf cs ≠ [] := by
  obtain ⟨c, hc⟩ := List.exists_mem_of_ne_nil cs h
  exact List.ne_nil_of_mem (mem_canonCnf.mpr (List.mem_map_of_mem _ hc))

theorem mem_canonCnf_ne_nil {cs : List (List Lit)}
    (h2 : ∀ cl ∈ cs, cl ≠ []) : ∀ cl ∈ canonCnf cs, cl ≠ [] := by
  intro cl hcl
  rw [mem_canonCnf, List.mem_map] at hcl
  obtain ⟨d, hd, rfl⟩ := hcl
  exact canonClause_ne_nil (h2 d hd)

theorem evalF_litFormula (v : String → Bool) (l : Lit) :
    evalF v (litFormula l) = litEval v l := by
  unfold litFormula litEval
  by_cases h : l.pos <;> simp [h, evalF]

theorem evalF_chainOp_disj (v : String → Bool) (gs : List Formula) :
    ∀ f, evalF v (chainOp Formula.disj f gs) = (evalF v f || gs.any (evalF v)) := by
  induction gs with
  | nil => intro f; simp [chainOp]
  | cons g gs ih =>
    intro f
    have : chainOp Formula.disj f (g :: gs) = chainOp Formula.disj (Formula.disj f g) gs := rfl
    rw [this, ih]
    simp [evalF, List.any_cons, Bool.or_assoc]

theorem evalF_chainOp_conj (v : String → Bool) (gs : List Formula) :
    ∀ f, evalF v (chainOp Formula.conj f gs) = (evalF v f && gs.all (evalF v)) := by
  induction gs with
  | nil => intro f; simp [chainOp]
  | cons g gs ih =>
    intro f
    have : chainOp Formula.conj f (g :: gs) = chainOp Formula.conj (Formula.conj f g) gs := rfl
    rw [this, ih]
    simp [evalF, List.all_cons, Bool.and_assoc]

theorem any_map_litFormula (v : String → Bool) (ls : List Lit) :
    (ls.map litFormula).any (evalF v) = ls.any (fun l => litEval v l) := by
  induction ls with
  | nil => rfl
  | cons x xs ih =>
    rw [List.map_cons, List.any_cons, List.any_cons, ih, evalF_litFormula]

theorem evalF_clauseFormula (v : String → Bool) {cl : List Lit} (h : cl ≠ []) :
    evalF v (clauseFormula cl) = cl.any (fun l => litEval v l) := by
  cases cl with
  | nil => exact absurd rfl h
  | cons l ls =>
    rw [clauseFormula, evalF_chainOp_disj, evalF_litFormula, List.any_cons,
      any_map_litFormula]

theorem all_map_clauseFormula (v : String → Bool) (cs : List (List Lit))
    (h2 : ∀ cl ∈ cs, cl ≠ []) :
    (cs.map clauseFormula).all (evalF v) =
      cs.all (fun cl => cl.any (fun l => litEval v l)) := by
  induction cs with
  | nil => rfl
  | cons d ds ih =>
    rw [List.map_cons, List.all_cons, List.all_cons,
      ih (fun cl hcl => h2 cl (by simp [hcl])),
      evalF_clauseFormula v (h2 d (by simp))]

theorem evalF_cnfFormula (v : String → Bool) {cs : List (List Lit)}
    (h : cs ≠ []) (h2 : ∀ cl ∈ cs, cl ≠ []) :
    evalF v (cnfFormula cs) = evalCnf v cs := by
  cases cs with
  | nil => exact absurd rfl h
  | cons c cs =>
    rw [cnfFormula, evalF_chainOp_conj,
      all_map_clauseFormula v cs (fun cl hcl => h2 cl (by simp [hcl])),
      evalF_clauseFormula v (h2 c (by simp))]
    rfl

theorem evalF_normFormula (v : String → Bool) (f : Formula) :
    evalF v (cnfFormula (normClauses f)) = evalF v f := by
  unfold normClauses
  rw [evalF_cnfFormula v (canonCnf_ne_nil (toClauses_ne_nil f true))
    (mem_canonCnf_ne_nil (mem_toClauses_ne_nil f true)),
    evalCnf_canonCnf, evalCnf_toClauses]
  cases evalF v f <;> rfl

/-! ### Behaviour of the store operations -/

theorem remove_belief_ok {belief : String} {bs : List (String × Int)}
    (h : bs.any (fun b => b.1 == belief) = true) :
    remove_belief belief bs = Except.ok (eraseFirstMatch belief bs) := by
  induction bs with
  | nil => simp at h
  | cons b bs ih =>
    by_cases hb : b.1 = belief
    · have hfind : List.find? (fun x : String × Int => x.1 == belief) (b :: bs) = some b :=
        List.find?_cons_of_pos bs (by simp [hb])
      unfold remove_belief
      rw [hfind]
      show Except.ok ((b :: bs).erase b) = Except.ok (eraseFirstMatch belief (b :: bs))
      rw [List.erase_cons_head b bs]
      simp only [eraseFirstMatch, if_pos hb]
    · have hfind0 : List.find? (fun x : String × Int => x.1 == belief) (b :: bs) =
          List.find? (fun x : String × Int => x.1 == belief) bs :=
        List.find?_cons_of_neg bs (by simp [hb])
      have hany : bs.any (fun x => x.1 == belief) = true := by
        have hp : (b.1 == belief) = false := by simp [hb]
        simp only [List.any_cons, hp, Bool.false_or] at h
        exact h
      cases hf : List.find? (fun x : String × Int => x.1 == belief) bs with
      | none =>
        exfalso
        obtain ⟨x, hx, hpx⟩ := List.any_eq_true.mp hany
        exact absurd hpx (by simpa using List.find?_eq_none.mp hf x hx)
      | some m =>
        have hm1 : m.1 = belief := by simpa using List.find?_some hf
        have hbm : ¬(b == m) = true := by
          simp only [beq_iff_eq]
          intro e
          exact hb (by rw [e]; exact hm1)
        have htail : remove_belief belief bs = Except.ok (bs.erase m) := by
          unfold remove_belief
          rw [hf]
        have herase : bs.erase m = eraseFirstMatch belief bs := by
          have h2 := ih hany
          rw [htail] at h2
          injection h2
        unfold remove_belief
        rw [hfind0, hf]
        show Except.ok ((b :: bs).erase m) = Except.ok (eraseFirstMatch belief (b :: bs))
        rw [List.erase_cons_tail hbm]
        simp only [eraseFirstMatch, if_neg hb, herase]

theorem remove_belief_err {belief : String} {bs : List (String × Int)}
    (h : bs.any (fun b => b.1 == belief) = false) :
    remove_belief belief bs = Except.error BErr.notFound := by
  unfold remove_belief
  cases hf : bs.find? (fun b => b.1 == belief) with
  | none => rfl
  | some m =>
    exfalso
    have hpm := List.find?_some hf
    have hmem := List.mem_of_find?_eq_some hf
    have : bs.any (fun b => b.1 == belief) = true := List.any_eq_true.mpr ⟨m, hmem, hpm⟩
    rw [h] at this
    exact Bool.false_ne_true this

theorem eraseFirstMatch_length {belief : String} {bs : List (String × Int)}
    (h : bs.any (fun b => b.1 == belief) = true) :
    (eraseFirstMatch belief bs).length + 1 = bs.length := by
  induction bs with
  | nil => simp at h
  | cons b bs ih =>
    by_cases hb : b.1 = belief
    · simp only [eraseFirstMatch, if_pos hb, List.length_cons]
    · have h2 : bs.any (fun x => x.1 == belief) = true := by
        have hp : (b.1 == belief) = false := by simp [hb]
        simp only [List.any_cons, hp, Bool.false_or] at h
        exact h
      have := ih h2
      simp only [eraseFirstMatch, if_neg hb, List.length_cons]
      omega

theorem mem_of_not_mem_eraseFirstMatch {p : String × Int} {belief : String}
    {bs : List (String × Int)} (hmem : p ∈ bs)
    (hnot : p ∉ eraseFirstMatch belief bs) :
    p.1 = belief ∧ get_entrenchment belief bs = Except.ok p.2 := by
  induction bs with
  | nil => simp at hmem
  | cons b bs ih =>
    by_cases hb : b.1 = belief
    · simp only [eraseFirstMatch, if_pos hb] at hnot
      have hpb : p = b := by
        rcases List.mem_cons.mp hmem with h | h
        · exact h
        · exact absurd h hnot
      subst hpb
      refine ⟨hb, ?_⟩
      simp only [get_entrenchment, if_pos hb]
    · simp only [eraseFirstMatch, if_neg hb] at hnot
      have hne : p ≠ b := by
        intro e
        exact hnot (by rw [e]; exact List.mem_cons_self b _)
      have hmem2 : p ∈ bs := by
        rcases List.mem_cons.mp hmem with h | h
        · exact absurd h hne
        · exact h
      have hnot2 : p ∉ eraseFirstMatch belief bs :=
        fun hx => hnot (List.mem_cons_of_mem _ hx)
      obtain ⟨h1, h2⟩ := ih hmem2 hnot2
      refine ⟨h1, ?_⟩
      simp only [get_entrenchment, if_neg hb]
      exact h2

theorem entailsInternal_false (belief : String) (checkBase : List (String × Int)) :
    entailsInternal belief checkBase = false := by
  unfold entailsInternal
  have hnil : checkBase.filterMap (fun b => (parse_belief b.1).toOption) = [] := by
    induction checkBase with
    | nil => rfl
    | cons b bs ih => simp [List.filterMap_cons, parse_belief, Except.toOption, ih]
  rw [hnil]
  rfl

theorem contraction_of_present {belief : String} {bs : List (String × Int)}
    (h : bs.any (fun b => b.1 == belief) = true) :
    contraction belief bs = Except.ok (eraseFirstMatch belief bs) := by
  unfold contraction
  rw [h, entailsInternal_false]
  simpa using remove_belief_ok h

theorem contraction_of_absent {belief : String} {bs : List (String × Int)}
    (h : bs.any (fun b => b.1 == belief) = false) :
    contraction belief bs = Except.error BErr.notFound := by
  unfold contraction
  rw [h]
  rfl

theorem convert_to_cnf_error_malformed {f : String} {err : BErr}
    (h : convert_to_cnf f = Except.error err) : err = BErr.malformedFormula := by
  unfold convert_to_cnf at h
  cases hp : parseFormula f with
  | none =>
    rw [hp] at h
    injection h with h
    exact h.symm
  | some g =>
    rw [hp] at h
    exact absurd h (by simp)

theorem semEntails_of_mem {premises : List Formula} {f g : Formula}
    (hg : g ∈ premises) (hiff : ∀ v, evalF v g = evalF v f) :
    semEntails premises f = true := by
  unfold semEntails
  rw [List.all_eq_true]
  intro v _
  cases hall : premises.all (evalF v) with
  | false => simp
  | true =>
    have := List.all_eq_true.mp hall g hg
    rw [hiff v] at this
    simp [this]

/-! ### The claims -/

/-- Claim C1: the claim states that `entails(B, f)` (negate_formula followed
by resolution) agrees with the truth-table oracle for every base and query
over at most 6 atoms.  It fails: for `B = [~p]` and `f = "p >> q"` the
truth-table oracle yields `true` (every model of `¬p` satisfies `p → q`),
but the engine returns `false`, because `negate_formula` prepends `~`
without parentheses, turning `¬(p → q)` into `(¬p) → q`, i.e. `p ∨ q` —
contradicting its own docstring ("Negate the formula").  This theorem
evaluates the embedded code at the failing input. -/
theorem C1_entails_disagrees_with_truth_table :
    entails [("~p", 50)] "p >> q" = Except.ok false ∧
    truthTableEntails [("~p", 50)] "p >> q" = some true ∧
    negate_formula "p >> q" = Except.ok "p | q" := ⟨rfl, rfl, rfl⟩

/-- Claim C2 counterexample: on `B = [(p,10), (~p | q,60), (q,80)]` the base
entails `"q"` before contraction, `contraction` succeeds (removing only the
`q` entry, and no `ContractionImpossible` is ever reported — the concept
does not exist in the code), yet the mutated base still entails `"q"`, and
the base did change, so neither disjunct of the claim holds. -/
theorem C2_counterexample :
    entails [("p", 10), ("~p | q", 60), ("q", 80)] "q" = Except.ok true ∧
    contraction "q" [("p", 10), ("~p | q", 60), ("q", 80)] =
      Except.ok [("p", 10), ("~p | q", 60)] ∧
    entails [("p", 10), ("~p | q", 60)] "q" = Except.ok true ∧
    [("p", 10), ("~p | q", 60)] ≠ [("p", 10), ("~p | q", 60), ("q", 80)] :=
  ⟨rfl, rfl, rfl, by decide⟩

/-- Claim C2 amended: when the base entails `f` and `f` is stored,
`contraction(B, f)` removes exactly the first entry whose text is `f` and
returns; the resulting base may still entail `f` (see the counterexample),
and no `ContractionImpossible` outcome exists.  (The internal `_entails`
check always returns `False` because `_parse_belief` always raises, so the
entrenchment-guided removal loop is never reached.) -/
theorem C2_contraction_removes_only_target (f : String) (bs : List (String × Int))
    (hent : entails bs f = Except.ok true)
    (hmem : bs.any (fun b => b.1 == f) = true) :
    contraction f bs = Except.ok (eraseFirstMatch f bs) :=
  contraction_of_present hmem

/-- Witness for the amended C2 at the counterexample base. -/
theorem C2_contraction_removes_only_target_witness :
    contraction "q" [("p", 10), ("~p | q", 60), ("q", 80)] =
      Except.ok (eraseFirstMatch "q" [("p", 10), ("~p | q", 60), ("q", 80)]) :=
  C2_contraction_removes_only_target "q" [("p", 10), ("~p | q", 60), ("q", 80)] rfl rfl

/-- Claim C3: after `revise(B, f, e)` the base entails `f` whenever `f` is
not self-contradictory, and revise is contraction by the negation of `f`
followed by expansion with `f` (Levi identity).  Spec-modelled: `revise`,
`contract` and `expand` are called by the CLI, demo and tests but are
absent from belief_base.py; they are the definitions `reviseSpec`,
`contractSpec`, `expandSpecF` built from spec sections 4.2, 4.4, 4.5. -/
theorem C3_revise_success_and_levi (bs : List (Formula × Int)) (f : Formula) (e : Int)
    (hsat : satisfiableB f = true) :
    semEntails ((reviseSpec bs f e).map (fun b => b.1)) f = true ∧
    reviseSpec bs f e = expandSpecF (contractSpec bs (negSpec f)).1 f e := by
  refine ⟨?_, rfl⟩
  apply semEntails_of_mem (g := cnfFormula (normClauses f))
  · show cnfFormula (normClauses f) ∈ (reviseSpec bs f e).map (fun b => b.1)
    unfold reviseSpec expandSpecF
    rw [List.map_append]
    simp
  · exact fun v => evalF_normFormula v f

/-- Witness for C3 at a concrete base and formula. -/
theorem C3_revise_success_and_levi_witness :
    satisfiableB (Formula.atom "q") = true ∧
    semEntails ((reviseSpec [(Formula.atom "p", 30)] (Formula.atom "q") 40).map
      (fun b => b.1)) (Formula.atom "q") = true :=
  ⟨rfl, (C3_revise_success_and_levi [(Formula.atom "p", 30)] (Formula.atom "q") 40 rfl).1⟩

/-- Claim C4 counterexample: with the single entry `("p >> q", 50)` the
engine's entailment check returns `false` for `"p >> q"` (an artefact of
the `negate_formula` bug), yet `contraction` does not leave the base
unchanged: it removes the entry. -/
theorem C4_counterexample :
    entails [("p >> q", 50)] "p >> q" = Except.ok false ∧
    contraction "p >> q" [("p >> q", 50)] = Except.ok [] ∧
    ([] : List (String × Int)) ≠ [("p >> q", 50)] := ⟨rfl, rfl, by decide⟩

/-- Claim C4 amended: when the base does not entail the formula (per the
engine's own check), `contraction` is not a no-op: if the formula is stored
it removes exactly that first entry (leaving every other entry unchanged),
and if it is not stored it raises `NotFound`. -/
theorem C4_contraction_vacuity_behaviour (f : String) (bs : List (String × Int))
    (hent : entails bs f = Except.ok false) :
    (bs.any (fun b => b.1 == f) = true →
      contraction f bs = Except.ok (eraseFirstMatch f bs)) ∧
    (bs.any (fun b => b.1 == f) = false →
      contraction f bs = Except.error BErr.notFound) :=
  ⟨fun hmem => contraction_of_present hmem, fun habs => contraction_of_absent habs⟩

/-- Witness for the amended C4 at the counterexample input. -/
theorem C4_contraction_vacuity_behaviour_witness :
    contraction "p >> q" [("p >> q", 50)] =
      Except.ok (eraseFirstMatch "p >> q" [("p >> q", 50)]) :=
  (C4_contraction_vacuity_behaviour "p >> q" [("p >> q", 50)] rfl).1 rfl

/-- Claim C5: `update(old, new, e)` is atomic.  If no stored entry matches
`old`, `remove` raises `NotFound` and the exception propagates before
`add_belief` runs, so the caller's store is exactly unchanged (the error
result carries no new store).  Otherwise the first entry whose text matches
`old` is removed and `(new, e)` is appended. -/
theorem C5_update_atomic (oldB newB : String) (e : Int) (bs : List (String × Int)) :
    (bs.any (fun b => b.1 == oldB) = false →
      update_belief oldB newB e bs = Except.error BErr.notFound) ∧
    (bs.any (fun b => b.1 == oldB) = true →
      update_belief oldB newB e bs =
        Except.ok (eraseFirstMatch oldB bs ++ [(newB, e)])) := by
  constructor
  · intro h
    unfold update_belief
    rw [remove_belief_err h]
  · intro h
    unfold update_belief
    rw [remove_belief_ok h]
    rfl

/-- Witness for C5 on both branches. -/
theorem C5_update_atomic_witness :
    update_belief "q" "~q" 60 [("p", 10), ("q", 80)] =
      Except.ok [("p", 10), ("~q", 60)] ∧
    update_belief "z" "w" 50 [("p", 10)] = Except.error BErr.notFound :=
  ⟨(C5_update_atomic "q" "~q" 60 [("p", 10), ("q", 80)]).2 rfl,
   (C5_update_atomic "z" "w" 50 [("p", 10)]).1 rfl⟩

/-- Claim C6 counterexample: `remove_belief` does not normalise its
argument — it compares raw text.  The store holds `"~p | q"`, which is
exactly the normal form of `"p >> q"` (first conjunct), yet
`remove("p >> q")` fails with `NotFound`. -/
theorem C6_counterexample :
    convert_to_cnf "p >> q" = Except.ok "~p | q" ∧
    remove_belief "p >> q" [("~p | q", 60)] = Except.error BErr.notFound :=
  ⟨rfl, rfl⟩

/-- Claim C6 amended: `remove(formula)` compares the raw formula text (no
normalisation) against the stored entries; it removes exactly the first
entry whose text equals the argument, shrinking the store by exactly one
entry, and fails with `NotFound` when no entry's text matches — in
particular it always fails on the empty store. -/
theorem C6_remove_first_raw_match (f : String) (bs : List (String × Int)) :
    (bs = [] → remove_belief f bs = Except.error BErr.notFound) ∧
    (bs.any (fun b => b.1 == f) = true →
      remove_belief f bs = Except.ok (eraseFirstMatch f bs) ∧
      (eraseFirstMatch f bs).length + 1 = bs.length) ∧
    (bs.any (fun b => b.1 == f) = false →
      remove_belief f bs = Except.error BErr.notFound) := by
  refine ⟨?_, ?_, ?_⟩
  · rintro rfl
    rfl
  · intro h
    exact ⟨remove_belief_ok h, eraseFirstMatch_length h⟩
  · intro h
    exact remove_belief_err h

/-- Witness for the amended C6 on the matching and the empty-store branch. -/
theorem C6_remove_first_raw_match_witness :
    (remove_belief "s" [("s", 15)] = Except.ok (eraseFirstMatch "s" [("s", 15)]) ∧
      (eraseFirstMatch "s" [("s", 15)]).length + 1 = [("s", 15)].length) ∧
    remove_belief "not_in_base" ([] : List (String × Int)) =
      Except.error BErr.notFound :=
  ⟨(C6_remove_first_raw_match "s" [("s", 15)]).2.1 rfl,
   (C6_remove_first_raw_match "not_in_base" []).1 rfl⟩

/-- Claim C8: `expand` normalises the formula and appends
`(cnf, entrenchment)`; it fails only with `MalformedFormula` from the
normaliser (never on logical grounds), and on success the store grows by
exactly one entry at the end, all previous entries untouched, even when a
logically identical entry already exists (nothing is compared).
Spec-modelled: `expand` is absent from belief_base.py; the appending
behaviour is that of `add_belief`. -/
theorem C8_expand_normalises_and_appends (f : String) (e : Int)
    (bs : List (String × Int)) :
    (∀ err, convert_to_cnf f = Except.error err →
      err = BErr.malformedFormula ∧ expand f e bs = Except.error BErr.malformedFormula) ∧
    (∀ c, convert_to_cnf f = Except.ok c →
      expand f e bs = Except.ok (bs ++ [(c, e)]) ∧
      (bs ++ [(c, e)]).length = bs.length + 1) := by
  constructor
  · intro err herr
    have hm := convert_to_cnf_error_malformed herr
    subst hm
    refine ⟨rfl, ?_⟩
    unfold expand
    rw [herr]
  · intro c hc
    unfold expand
    rw [hc]
    exact ⟨rfl, by simp⟩

/-- Witness for C8: expanding a duplicate of an already-stored formula
appends it anyway, and a malformed formula fails. -/
theorem C8_expand_normalises_and_appends_witness :
    expand "p >> q" 20 [("~p | q", 50)] =
      Except.ok [("~p | q", 50), ("~p | q", 20)] ∧
    expand "p <<< q" 20 [] = Except.error BErr.malformedFormula :=
  ⟨((C8_expand_normalises_and_appends "p >> q" 20 [("~p | q", 50)]).2 "~p | q" rfl).1,
   ((C8_expand_normalises_and_appends "p <<< q" 20 []).1 BErr.malformedFormula rfl).2⟩

/-- Claim C9 counterexample: an internal failure during resolution (here: a
malformed stored clause `"p &"`, reachable e.g. through
`update_belief`, which appends raw text) is not surfaced as a structured
`ResolutionError` — no such type exists — but caught inside `resolution`
and converted into the normal answer `False`, which `entails` then reports
as an ordinary non-entailment. -/
theorem C9_counterexample :
    resolutionBody [("p &", 50)] "~q" = Except.error BErr.malformedFormula ∧
    resolution [("p &", 50)] "~q" = false ∧
    entails [("p &", 50)] "q" = Except.ok false := ⟨rfl, rfl, rfl⟩

/-- Claim C9 amended: any internal failure during the resolution check is
caught by `resolution` itself (a message is printed) and converted into a
normal `false` answer; nothing is surfaced to the caller. -/
theorem C9_resolution_swallows_errors (bs : List (String × Int)) (neg : String)
    (err : BErr) (h : resolutionBody bs neg = Except.error err) :
    resolution bs neg = false := by
  unfold resolution
  rw [h]

/-- Witness for the amended C9 at the counterexample input. -/
theorem C9_resolution_swallows_errors_witness :
    resolution [("p &", 50)] "~q" = false :=
  C9_resolution_swallows_errors [("p &", 50)] "~q" BErr.malformedFormula rfl

/-- Claim C10: besides the target entry itself, contraction removes only
entries whose entrenchment is at most the target's; every entry with
strictly greater entrenchment survives with its formula and entrenchment
unchanged.  (In the code as it stands only the target entry is ever
removed, so the property holds a fortiori; the removal loop, which filters
on `ent <= entrenchment_to_remove`, is unreachable because `_entails`
always returns `False`.) -/
theorem C10_contraction_entrenchment_frame (f : String)
    (bs bs2 : List (String × Int)) (t : Int)
    (hc : contraction f bs = Except.ok bs2)
    (ht : get_entrenchment f bs = Except.ok t) :
    (∀ p ∈ bs, p.2 > t → p ∈ bs2) ∧
    (∀ p ∈ bs, p ∉ bs2 → p.1 = f ∨ p.2 ≤ t) := by
  have hmem : bs.any (fun b => b.1 == f) = true := by
    cases hA : bs.any (fun b => b.1 == f) with
    | true => rfl
    | false =>
      rw [contraction_of_absent hA] at hc
      exact absurd hc (by simp)
  rw [contraction_of_present hmem] at hc
  have hbs2 : bs2 = eraseFirstMatch f bs := by
    injection hc with h
    exact h.symm
  subst hbs2
  constructor
  · intro p hp hgt
    by_contra hnot
    obtain ⟨h1, h2⟩ := mem_of_not_mem_eraseFirstMatch hp hnot
    rw [ht] at h2
    injection h2 with h2
    omega
  · intro p hp hnot
    obtain ⟨h1, _⟩ := mem_of_not_mem_eraseFirstMatch hp hnot
    exact Or.inl h1

/-- Witness for C10: contracting `"p"` out of `[(p,10), (q,80)]` keeps the
strictly more entrenched `(q,80)` untouched. -/
theorem C10_contraction_entrenchment_frame_witness :
    ("q", (80 : Int)) ∈ [("q", (80 : Int))] :=
  (C10_contraction_entrenchment_frame "p" [("p", 10), ("q", 80)] [("q", 80)] 10
    rfl rfl).1 ("q", 80) (by decide) (by decide)

/-! ### The canonical orders are total and transitive (for claim C7) -/

theorem charLtB_trans : ∀ a b c : Char, charLtB a b = true → charLtB b c = true →
    charLtB a c = true := by
  intro a b c h1 h2
  simp only [charLtB, decide_eq_true_eq] at *
  omega

theorem charLtB_connex : ∀ a b : Char, charLtB a b = false → charLtB b a = false →
    a = b := by
  intro a b h1 h2
  simp only [charLtB, decide_eq_false_iff_not, Nat.not_lt] at h1 h2
  have hn : a.toNat = b.toNat := Nat.le_antisymm h2 h1
  exact Char.eq_of_val_eq (UInt32.ext hn)

theorem lexLtB_trans {α : Type} [DecidableEq α] (lt : α → α → Bool)
    (ltt : ∀ a b c, lt a b = true → lt b c = true → lt a c = true) :
    ∀ (xs ys zs : List α), lexLtB lt xs ys = true → lexLtB lt ys zs = true →
      lexLtB lt xs zs = true
  | [], [], _, h1, _ => by simp [lexLtB] at h1
  | [], _ :: _, [], _, h2 => by simp [lexLtB] at h2
  | [], _ :: _, _ :: _, _, _ => by simp [lexLtB]
  | _ :: _, [], _, h1, _ => by simp [lexLtB] at h1
  | _ :: _, _ :: _, [], _, h2 => by simp [lexLtB] at h2
  | x :: xs, y :: ys, z :: zs, h1, h2 => by
    simp only [lexLtB, Bool.or_eq_true, Bool.and_eq_true, beq_iff_eq] at h1 h2 ⊢
    rcases h1 with h1 | ⟨rfl, h1⟩
    · rcases h2 with h2 | ⟨rfl, h2⟩
      · exact Or.inl (ltt _ _ _ h1 h2)
      · exact Or.inl h1
    · rcases h2 with h2 | ⟨rfl, h2⟩
      · exact Or.inl h2
      · exact Or.inr ⟨rfl, lexLtB_trans lt ltt xs ys zs h1 h2⟩

theorem lexLtB_connex {α : Type} [DecidableEq α] (lt : α → α → Bool)
    (ltc : ∀ a b, lt a b = false → lt b a = false → a = b) :
    ∀ (xs ys : List α), lexLtB lt xs ys = false → lexLtB lt ys xs = false → xs = ys
  | [], [], _, _ => rfl
  | [], _ :: _, h1, _ => by simp [lexLtB] at h1
  | _ :: _, [], _, h2 => by simp [lexLtB] at h2
  | x :: xs, y :: ys, h1, h2 => by
    have hxy : lt x y = false := by
      cases h : lt x y
      · rfl
      · simp only [lexLtB, h, Bool.true_or] at h1
        exact h1
    have hyx : lt y x = false := by
      cases h : lt y x
      · rfl
      · simp only [lexLtB, h, Bool.true_or] at h2
        exact h2
    have hxey : x = y := ltc x y hxy hyx
    subst hxey
    have hrest1 : lexLtB lt xs ys = false := by
      simp only [lexLtB, hxy, Bool.false_or, beq_self_eq_true, Bool.true_and] at h1
      exact h1
    have hrest2 : lexLtB lt ys xs = false := by
      simp only [lexLtB, hyx, Bool.false_or, beq_self_eq_true, Bool.true_and] at h2
      exact h2
    rw [lexLtB_connex lt ltc xs ys hrest1 hrest2]

theorem strLtB_trans : ∀ a b c : String, strLtB a b = true → strLtB b c = true →
    strLtB a c = true := by
  intro a b c h1 h2
  exact lexLtB_trans charLtB charLtB_trans a.data b.data c.data h1 h2

theorem strLtB_connex : ∀ a b : String, strLtB a b = false → strLtB b a = false →
    a = b := by
  intro a b h1 h2
  have h := lexLtB_connex charLtB charLtB_connex a.data b.data h1 h2
  cases a
  cases b
  exact congrArg String.mk h

theorem litLtB_trans : ∀ a b c : Lit, litLtB a b = true → litLtB b c = true →
    litLtB a c = true := by
  intro a b c h1 h2
  simp only [litLtB, Bool.or_eq_true, Bool.and_eq_true, beq_iff_eq] at h1 h2 ⊢
  rcases h1 with h1 | ⟨he1, h1⟩
  · rcases h2 with h2 | ⟨he2, _⟩
    · exact Or.inl (strLtB_trans _ _ _ h1 h2)
    · exact Or.inl (he2 ▸ h1)
  · rcases h2 with h2 | ⟨he2, h2⟩
    · exact Or.inl (he1 ▸ h2)
    · exfalso
      rcases h1 with ⟨hna, hb⟩
      rcases h2 with ⟨hnb, hc⟩
      rw [hb] at hnb
      simp at hnb

theorem litLtB_connex : ∀ a b : Lit, litLtB a b = false → litLtB b a = false →
    a = b := by
  intro a b h1 h2
  rw [litLtB, Bool.or_eq_false_iff] at h1 h2
  have hname : a.name = b.name := strLtB_connex _ _ h1.1 h2.1
  have hp1 := h1.2
  have hp2 := h2.2
  rw [hname] at hp1
  rw [← hname] at hp2
  simp only [beq_self_eq_true, Bool.true_and] at hp1 hp2
  have hpos : a.pos = b.pos := by
    rcases Bool.eq_false_or_eq_true a.pos with ha | ha <;>
      rcases Bool.eq_false_or_eq_true b.pos with hb | hb
    · rw [ha, hb]
    · rw [ha, hb] at hp2
      simp at hp2
    · rw [ha, hb] at hp1
      simp at hp1
    · rw [ha, hb]
  cases a
  cases b
  simp only at hname hpos
  rw [hname, hpos]

theorem leOfLtB_total {α : Type} [DecidableEq α] (lt : α → α → Bool)
    (ltc : ∀ a b, lt a b = false → lt b a = false → a = b) (a b : α) :
    leOfLtB lt a b = true ∨ leOfLtB lt b a = true := by
  unfold leOfLtB
  cases h1 : lt a b
  · cases h2 : lt b a
    · left
      rw [ltc a b h1 h2]
      simp
    · right
      simp
  · left
    simp

theorem leOfLtB_trans {α : Type} [DecidableEq α] (lt : α → α → Bool)
    (ltt : ∀ a b c, lt a b = true → lt b c = true → lt a c = true)
    (a b c : α) (h1 : leOfLtB lt a b = true) (h2 : leOfLtB lt b c = true) :
    leOfLtB lt a c = true := by
  unfold leOfLtB at h1 h2 ⊢
  simp only [Bool.or_eq_true, beq_iff_eq] at h1 h2 ⊢
  rcases h1 with h1 | rfl
  · rcases h2 with h2 | rfl
    · exact Or.inl (ltt a b c h1 h2)
    · exact Or.inl h1
  · exact h2

instance : IsTotal Lit rLit :=
  ⟨fun a b => leOfLtB_total litLtB litLtB_connex a b⟩

instance : IsTrans Lit rLit :=
  ⟨fun a b c => leOfLtB_trans litLtB litLtB_trans a b c⟩

instance : IsTotal (List Lit) rCl :=
  ⟨fun a b => leOfLtB_total clLtB (lexLtB_connex litLtB litLtB_connex) a b⟩

instance : IsTrans (List Lit) rCl :=
  ⟨fun a b c => leOfLtB_trans clLtB (lexLtB_trans litLtB litLtB_trans) a b c⟩

/-! ### The canonical form is a fixpoint (for claim C7) -/

theorem canonClause_sorted (cl : List Lit) : List.Sorted rLit (canonClause cl) :=
  List.Pairwise.sublist (List.dedup_sublist _) (List.sorted_insertionSort rLit cl)

theorem canonClause_nodup (cl : List Lit) : (canonClause cl).Nodup :=
  List.nodup_dedup _

theorem canonClause_idem (cl : List Lit) :
    canonClause (canonClause cl) = canonClause cl := by
  show (List.insertionSort rLit (canonClause cl)).dedup = canonClause cl
  rw [List.Sorted.insertionSort_eq (canonClause_sorted cl),
    List.Nodup.dedup (canonClause_nodup cl)]

theorem canonCnf_sorted (cs : List (List Lit)) : List.Sorted rCl (canonCnf cs) :=
  List.Pairwise.sublist (List.dedup_sublist _)
    (List.sorted_insertionSort rCl (cs.map canonClause))

theorem canonCnf_nodup (cs : List (List Lit)) : (canonCnf cs).Nodup :=
  List.nodup_dedup _

theorem canonCnf_map_canonClause (cs : List (List Lit)) :
    (canonCnf cs).map canonClause = canonCnf cs := by
  have h : ∀ x ∈ canonCnf cs, canonClause x = x := by
    intro x hx
    obtain ⟨d, _, rfl⟩ := List.mem_map.mp (mem_canonCnf.mp hx)
    exact canonClause_idem d
  calc (canonCnf cs).map canonClause = (canonCnf cs).map id :=
        List.map_congr_left h
    _ = canonCnf cs := List.map_id _

theorem canonCnf_idem (cs : List (List Lit)) :
    canonCnf (canonCnf cs) = canonCnf cs := by
  show (List.insertionSort rCl ((canonCnf cs).map canonClause)).dedup = canonCnf cs
  rw [canonCnf_map_canonClause, List.Sorted.insertionSort_eq (canonCnf_sorted cs),
    List.Nodup.dedup (canonCnf_nodup cs)]

theorem toClauses_litFormula (l : Lit) : toClauses (litFormula l) true = [[l]] := by
  cases l with
  | mk n p => cases p <;> simp [litFormula, toClauses]

theorem toClauses_orChain : ∀ (ls : List Lit) (f : Formula) (a : List Lit),
    toClauses f true = [a] →
    toClauses (chainOp Formula.disj f (ls.map litFormula)) true = [a ++ ls]
  | [], f, a, h => by simpa [chainOp] using h
  | x :: xs, f, a, h => by
    have hstep : toClauses (Formula.disj f (litFormula x)) true = [a ++ [x]] := by
      rw [toClauses, h, toClauses_litFormula]
      simp [distribOr]
    have hrec := toClauses_orChain xs (Formula.disj f (litFormula x)) (a ++ [x]) hstep
    rw [List.map_cons]
    show toClauses
      (chainOp Formula.disj (Formula.disj f (litFormula x)) (xs.map litFormula)) true =
      [a ++ x :: xs]
    rw [hrec]
    simp

theorem toClauses_clauseFormula {cl : List Lit} (h : cl ≠ []) :
    toClauses (clauseFormula cl) true = [cl] := by
  cases cl with
  | nil => exact absurd rfl h
  | cons l ls =>
    have hrec := toClauses_orChain ls (litFormula l) [l] (toClauses_litFormula l)
    rw [clauseFormula]
    simpa using hrec

theorem toClauses_andChain : ∀ (cs : List (List Lit)) (f : Formula) (A : List (List Lit)),
    toClauses f true = A → (∀ cl ∈ cs, cl ≠ []) →
    toClauses (chainOp Formula.conj f (cs.map clauseFormula)) true = A ++ cs
  | [], f, A, h, _ => by simpa [chainOp] using h
  | c :: cs, f, A, h, hne => by
    have hstep : toClauses (Formula.conj f (clauseFormula c)) true = A ++ [c] := by
      rw [toClauses, h, toClauses_clauseFormula (hne c (by simp))]
    have hrec := toClauses_andChain cs (Formula.conj f (clauseFormula c)) (A ++ [c])
      hstep (fun cl hcl => hne cl (by simp [hcl]))
    rw [List.map_cons]
    show toClauses
      (chainOp Formula.conj (Formula.conj f (clauseFormula c)) (cs.map clauseFormula))
      true = A ++ c :: cs
    rw [hrec]
    simp

theorem toClauses_cnfFormula {cs : List (List Lit)} (h : cs ≠ [])
    (h2 : ∀ cl ∈ cs, cl ≠ []) : toClauses (cnfFormula cs) true = cs := by
  cases cs with
  | nil => exact absurd rfl h
  | cons c cs =>
    have hrec := toClauses_andChain cs (clauseFormula c) [c]
      (toClauses_clauseFormula (h2 c (by simp))) (fun cl hcl => h2 cl (by simp [hcl]))
    rw [cnfFormula]
    simpa using hrec

theorem normClauses_fixpoint (f : Formula) :
    normClauses (cnfFormula (normClauses f)) = normClauses f := by
  show canonCnf (toClauses (cnfFormula (canonCnf (toClauses f true))) true) =
    canonCnf (toClauses f true)
  rw [toClauses_cnfFormula (canonCnf_ne_nil (toClauses_ne_nil f true))
    (mem_canonCnf_ne_nil (mem_toClauses_ne_nil f true))]
  exact canonCnf_idem _

/-! ### Tokenizer round trip (for claim C7) -/

theorem clauseToks_cons (l : Lit) (ls : List Lit) :
    clauseToks (l :: ls) = litToks l ++ clauseTailToks ls := by
  induction ls generalizing l with
  | nil => simp [clauseToks, sepToks, clauseTailToks]
  | cons x xs ih =>
    have h1 : clauseToks (l :: x :: xs) = litToks l ++ Tok.bar :: clauseToks (x :: xs) := by
      simp [clauseToks, sepToks]
    rw [h1, ih x]
    simp [clauseTailToks]

theorem cnfToks_multi (c : List Lit) (cs : List (List Lit)) (h : cs ≠ []) :
    cnfToks (c :: cs) = clauseToksP c ++ cnfTailToks cs := by
  induction cs generalizing c with
  | nil => exact absurd rfl h
  | cons d ds ih =>
    cases ds with
    | nil => simp [cnfToks, sepToks, cnfTailToks, clauseToksP]
    | cons e es =>
      have h1 : cnfToks (c :: d :: e :: es) =
          clauseToksP c ++ Tok.amp :: cnfToks (d :: e :: es) := by
        simp [cnfToks, sepToks]
      rw [h1, ih d (by simp)]
      simp [cnfTailToks]

theorem tokGo_ident_run : ∀ (run acc rest : List Char), run.all isIdentChar = true →
    tokGo (TokSt.acc (some acc)) (run ++ rest) = tokGo (TokSt.acc (some (acc ++ run))) rest
  | [], acc, rest, _ => by simp
  | c :: run, acc, rest, h => by
    rw [List.all_cons, Bool.and_eq_true] at h
    show tokGo (TokSt.acc (some acc)) (c :: (run ++ rest)) =
      tokGo (TokSt.acc (some (acc ++ c :: run))) rest
    have hstep : tokGo (TokSt.acc (some acc)) (c :: (run ++ rest)) =
        tokGo (TokSt.acc (some (acc ++ [c]))) (run ++ rest) := by
      simp only [tokGo, h.1, if_true]
    rw [hstep, tokGo_ident_run run (acc ++ [c]) rest h.2]
    simp

theorem tokGo_flush (c : Char) (cs acc : List Char) (h : isIdentChar c = false) :
    tokGo (TokSt.acc (some acc)) (c :: cs) =
      (tokGo (TokSt.acc none) (c :: cs)).map (fun ts => Tok.ident ⟨acc⟩ :: ts) := by
  simp only [tokGo, h, Bool.false_eq_true, if_false]

theorem string_mk_data (s : String) : String.mk s.data = s := by
  cases s
  rfl

theorem isIdentStart_isIdentChar {c : Char} (h : isIdentStart c = true) :
    isIdentChar c = true := by
  rw [isIdentStart, Bool.or_eq_true] at h
  rw [isIdentChar, Bool.or_eq_true]
  rcases h with h | h
  · left
    rw [Char.isAlphanum]
    simp [h]
  · right
    exact h

theorem tokGo_flushToks (acc : List Char) (t : Tok) (r : List Tok)
    (h : noIdentHead (t :: r) = true) :
    tokGo (TokSt.acc (some acc)) (toksChars (t :: r)) =
      (tokGo (TokSt.acc none) (toksChars (t :: r))).map (fun ts => Tok.ident ⟨acc⟩ :: ts) := by
  cases t with
  | lpar => exact tokGo_flush '(' (toksChars r) acc rfl
  | rpar => exact tokGo_flush ')' (toksChars r) acc rfl
  | amp => exact tokGo_flush ' ' ('&' :: ' ' :: toksChars r) acc rfl
  | bar => exact tokGo_flush ' ' ('|' :: ' ' :: toksChars r) acc rfl
  | shr => exact tokGo_flush '>' ('>' :: toksChars r) acc rfl
  | tilde => exact tokGo_flush '~' (toksChars r) acc rfl
  | ident n => simp [noIdentHead] at h

theorem tokGo_roundtrip : ∀ (ts : List Tok), toksOkB ts = true →
    tokGo (TokSt.acc none) (toksChars ts) = some ts
  | [], _ => rfl
  | Tok.lpar :: rest, h => by
    show (tokGo (TokSt.acc none) (toksChars rest)).map (fun x => Tok.lpar :: x) =
      some (Tok.lpar :: rest)
    rw [tokGo_roundtrip rest h]
    rfl
  | Tok.rpar :: rest, h => by
    show (tokGo (TokSt.acc none) (toksChars rest)).map (fun x => Tok.rpar :: x) =
      some (Tok.rpar :: rest)
    rw [tokGo_roundtrip rest h]
    rfl
  | Tok.amp :: rest, h => by
    show (tokGo (TokSt.acc none) (toksChars rest)).map (fun x => Tok.amp :: x) =
      some (Tok.amp :: rest)
    rw [tokGo_roundtrip rest h]
    rfl
  | Tok.bar :: rest, h => by
    show (tokGo (TokSt.acc none) (toksChars rest)).map (fun x => Tok.bar :: x) =
      some (Tok.bar :: rest)
    rw [tokGo_roundtrip rest h]
    rfl
  | Tok.shr :: rest, h => by
    show (tokGo (TokSt.acc none) (toksChars rest)).map (fun x => Tok.shr :: x) =
      some (Tok.shr :: rest)
    rw [tokGo_roundtrip rest h]
    rfl
  | Tok.tilde :: rest, h => by
    show (tokGo (TokSt.acc none) (toksChars rest)).map (fun x => Tok.tilde :: x) =
      some (Tok.tilde :: rest)
    rw [tokGo_roundtrip rest h]
    rfl
  | Tok.ident n :: rest, h => by
    simp only [toksOkB, Bool.and_eq_true] at h
    obtain ⟨⟨hwf, hni⟩, hrest⟩ := h
    rw [wfNameB] at hwf
    cases hd : n.data with
    | nil => rw [hd] at hwf; simp [wfAccB] at hwf
    | cons c cs =>
      rw [hd] at hwf
      rw [wfAccB, Bool.and_eq_true] at hwf
      have hstart : tokGo (TokSt.acc none) (toksChars (Tok.ident n :: rest)) =
          tokGo (TokSt.acc (some [c])) (cs ++ toksChars rest) := by
        show tokGo (TokSt.acc none) (n.data ++ toksChars rest) =
          tokGo (TokSt.acc (some [c])) (cs ++ toksChars rest)
        rw [hd]
        show tokGo (TokSt.acc none) (c :: (cs ++ toksChars rest)) =
          tokGo (TokSt.acc (some [c])) (cs ++ toksChars rest)
        simp only [tokGo, isIdentStart_isIdentChar hwf.1, if_true, hwf.1]
      rw [hstart, tokGo_ident_run cs [c] (toksChars rest) hwf.2]
      have hacc : ([c] ++ cs : List Char) = n.data := by rw [hd]; rfl
      rw [hacc]
      cases rest with
      | nil =>
        show some [Tok.ident (String.mk n.data)] = some [Tok.ident n]
        rw [string_mk_data]
      | cons t2 rest2 =>
        rw [tokGo_flushToks n.data t2 rest2 hni, tokGo_roundtrip (t2 :: rest2) hrest]
        show some (Tok.ident (String.mk n.data) :: t2 :: rest2) =
          some (Tok.ident n :: t2 :: rest2)
        rw [string_mk_data]

/-! ### Every identifier the tokenizer emits is well-formed (for claim C7) -/

theorem wfAccB_append {a : List Char} {c : Char} (h : wfAccB a = true)
    (hc : isIdentChar c = true) : wfAccB (a ++ [c]) = true := by
  cases a with
  | nil => simp [wfAccB] at h
  | cons x xs =>
    rw [wfAccB, Bool.and_eq_true] at h
    show wfAccB (x :: (xs ++ [c])) = true
    rw [wfAccB, Bool.and_eq_true]
    refine ⟨h.1, ?_⟩
    rw [List.all_append]
    simp [h.2, hc]

theorem tokGo_none_cons_cases (c : Char) (cs : List Char) (ts : List Tok)
    (hic : isIdentChar c = false)
    (h : tokGo (TokSt.acc none) (c :: cs) = some ts) :
    tokGo (TokSt.acc none) cs = some ts ∨
    (∃ tk ts0, tokGo (TokSt.acc none) cs = some ts0 ∧ ts = tk :: ts0 ∧
      noIdentHead [tk] = true) ∨
    tokGo TokSt.gt cs = some ts := by
  simp only [tokGo, hic, Bool.false_eq_true, if_false] at h
  split at h
  · exact Or.inl h
  · split at h
    · rcases Option.map_eq_some'.mp h with ⟨ts0, h0, rfl⟩
      exact Or.inr (Or.inl ⟨Tok.lpar, ts0, h0, rfl, rfl⟩)
    · split at h
      · rcases Option.map_eq_some'.mp h with ⟨ts0, h0, rfl⟩
        exact Or.inr (Or.inl ⟨Tok.rpar, ts0, h0, rfl, rfl⟩)
      · split at h
        · rcases Option.map_eq_some'.mp h with ⟨ts0, h0, rfl⟩
          exact Or.inr (Or.inl ⟨Tok.amp, ts0, h0, rfl, rfl⟩)
        · split at h
          · rcases Option.map_eq_some'.mp h with ⟨ts0, h0, rfl⟩
            exact Or.inr (Or.inl ⟨Tok.bar, ts0, h0, rfl, rfl⟩)
          · split at h
            · rcases Option.map_eq_some'.mp h with ⟨ts0, h0, rfl⟩
              exact Or.inr (Or.inl ⟨Tok.tilde, ts0, h0, rfl, rfl⟩)
            · split at h
              · exact Or.inr (Or.inr h)
              · cases h

theorem tokGo_wf : ∀ (fuel : Nat) (st : TokSt) (cs : List Char) (ts : List Tok),
    2 * cs.length + tokStRank st ≤ fuel → tokStInv st →
    tokGo st cs = some ts →
    ∀ n, Tok.ident n ∈ ts → wfNameB n = true := by
  intro fuel
  induction fuel with
  | zero =>
    intro st cs ts hle hinv h n hn
    cases cs with
    | cons c cs =>
      exfalso
      simp only [List.length_cons] at hle
      omega
    | nil =>
      cases st with
      | gt => cases h
      | acc pend =>
        cases pend with
        | none =>
          have hts : ts = [] := by
            have h2 : some ([] : List Tok) = some ts := h
            injection h2 with h2
            exact h2.symm
          subst hts
          simp at hn
        | some acc =>
          exfalso
          simp only [tokStRank, List.length_nil] at hle
          omega
  | succ fuel ih =>
    intro st cs ts hle hinv h n hn
    cases cs with
    | nil =>
      cases st with
      | gt => cases h
      | acc pend =>
        cases pend with
        | none =>
          have hts : ts = [] := by
            have h2 : some ([] : List Tok) = some ts := h
            injection h2 with h2
            exact h2.symm
          subst hts
          simp at hn
        | some acc =>
          have hts : ts = [Tok.ident ⟨acc⟩] := by
            have h2 : some [Tok.ident (⟨acc⟩ : String)] = some ts := h
            injection h2 with h2
            exact h2.symm
          subst hts
          simp only [List.mem_singleton] at hn
          injection hn with hn
          subst hn
          exact hinv
    | cons c cs =>
      cases st with
      | gt =>
        have hgt : tokGo TokSt.gt (c :: cs) =
            (if c = '>' then (tokGo (TokSt.acc none) cs).map (fun x => Tok.shr :: x)
             else none) := rfl
        rw [hgt] at h
        split at h
        · rcases Option.map_eq_some'.mp h with ⟨ts0, h0, rfl⟩
          rcases List.mem_cons.mp hn with he | hmem
          · cases he
          · refine ih (TokSt.acc none) cs ts0 ?_ trivial h0 n hmem
            simp only [tokStRank, List.length_cons, tokStRank] at hle ⊢
            omega
        · cases h
      | acc pend =>
        by_cases hic : isIdentChar c = true
        · cases pend with
          | some acc =>
            simp only [tokGo, hic, if_true] at h
            refine ih (TokSt.acc (some (acc ++ [c]))) cs ts ?_
              (wfAccB_append hinv hic) h n hn
            simp only [tokStRank, List.length_cons] at hle ⊢
            omega
          | none =>
            simp only [tokGo, hic, if_true] at h
            split at h
            · rename_i hst
              refine ih (TokSt.acc (some [c])) cs ts ?_
                (by simp [tokStInv, wfAccB, hst]) h n hn
              simp only [tokStRank, List.length_cons] at hle ⊢
              omega
            · cases h
        · have hic2 : isIdentChar c = false := by
            cases h2 : isIdentChar c
            · rfl
            · exact absurd h2 hic
          cases pend with
          | some acc =>
            rw [tokGo_flush c cs acc hic2] at h
            rcases Option.map_eq_some'.mp h with ⟨ts0, h0, rfl⟩
            rcases List.mem_cons.mp hn with he | hmem
            · injection he with he
              subst he
              exact hinv
            · refine ih (TokSt.acc none) (c :: cs) ts0 ?_ trivial h0 n hmem
              simp only [tokStRank, List.length_cons] at hle ⊢
              omega
          | none =>
            rcases tokGo_none_cons_cases c cs ts hic2 h with
              h1 | ⟨tk, ts0, h0, rfl, htk⟩ | h1
            · refine ih (TokSt.acc none) cs ts ?_ trivial h1 n hn
              simp only [tokStRank, List.length_cons] at hle ⊢
              omega
            · rcases List.mem_cons.mp hn with he | hmem
              · rw [← he] at htk
                simp [noIdentHead] at htk
              · refine ih (TokSt.acc none) cs ts0 ?_ trivial h0 n hmem
                simp only [tokStRank, List.length_cons] at hle ⊢
                omega
            · refine ih TokSt.gt cs ts ?_ trivial h1 n hn
              simp only [tokStRank, List.length_cons] at hle ⊢
              omega

/-! ### Every atom the parser produces comes from an identifier token -/

theorem parseL_rest_subset : ∀ (fuel lvl : Nat) (acc : Option Formula) (ts : List Tok)
    (f : Formula) (rest : List Tok),
    parseL fuel lvl acc ts = some (f, rest) → ∀ t, t ∈ rest → t ∈ ts := by
  intro fuel
  induction fuel with
  | zero =>
    intro lvl acc ts f rest h
    cases h
  | succ fuel ih =>
    intro lvl acc ts f rest h t ht
    cases acc with
    | some g =>
      cases ts with
      | nil =>
        replace h : some ((g, []) : Formula × List Tok) = some (f, rest) := h
        injection h with h
        rw [← (Prod.mk.injEq ..).mp h |>.2] at ht
        simp at ht
      | cons t0 ts0 =>
        replace h : (if tokForLvl lvl t0 then
            match parseL fuel (lvl + 1) none ts0 with
            | some (g2, rest2) => parseL fuel lvl (some (combineLvl lvl g g2)) rest2
            | none => none
          else some (g, t0 :: ts0)) = some (f, rest) := h
        split at h
        · cases hp : parseL fuel (lvl + 1) none ts0 with
          | none => rw [hp] at h; cases h
          | some pr =>
            obtain ⟨g2, rest2⟩ := pr
            rw [hp] at h
            have hs1 := ih (lvl + 1) none ts0 g2 rest2 hp
            have hs2 := ih lvl (some (combineLvl lvl g g2)) rest2 f rest h
            exact List.mem_cons_of_mem t0 (hs1 t (hs2 t ht))
        · injection h with h
          rw [← (Prod.mk.injEq ..).mp h |>.2] at ht
          exact ht
    | none =>
      simp only [parseL] at h
      by_cases hl : lvl = 3
      · rw [if_pos hl] at h
        split at h
        · rcases Option.map_eq_some'.mp h with ⟨⟨f0, rest0x⟩, h0, hfr⟩
          injection hfr with hfr1 hfr2
          rw [← hfr2] at ht
          exact List.mem_cons_of_mem _ (ih 3 none _ f0 rest0x h0 t ht)
        · split at h
          · rename_i f0 r heq
            injection h with h
            rw [← (Prod.mk.injEq ..).mp h |>.2] at ht
            have hs := ih 0 none _ f0 (Tok.rpar :: r) heq
            exact List.mem_cons_of_mem _ (hs t (List.mem_cons_of_mem _ ht))
          all_goals cases h
        · injection h with h
          rw [← (Prod.mk.injEq ..).mp h |>.2] at ht
          exact List.mem_cons_of_mem _ ht
        all_goals cases h
      · rw [if_neg hl] at h
        cases hp : parseL fuel (lvl + 1) none ts with
        | none => rw [hp] at h; cases h
        | some pr =>
          obtain ⟨f0, rest0⟩ := pr
          rw [hp] at h
          have hs1 := ih (lvl + 1) none ts f0 rest0 hp
          have hs2 := ih lvl (some f0) rest0 f rest h
          exact hs1 t (hs2 t ht)

theorem parseL_atoms : ∀ (fuel lvl : Nat) (acc : Option Formula) (ts : List Tok)
    (f : Formula) (rest : List Tok),
    parseL fuel lvl acc ts = some (f, rest) →
    ∀ n, n ∈ atomsOf f →
      (∃ g, acc = some g ∧ n ∈ atomsOf g) ∨ Tok.ident n ∈ ts := by
  intro fuel
  induction fuel with
  | zero =>
    intro lvl acc ts f rest h
    cases h
  | succ fuel ih =>
    intro lvl acc ts f rest h n hn
    cases acc with
    | some g =>
      cases ts with
      | nil =>
        replace h : some ((g, []) : Formula × List Tok) = some (f, rest) := h
        injection h with h
        rw [← (Prod.mk.injEq ..).mp h |>.1] at hn
        exact Or.inl ⟨g, rfl, hn⟩
      | cons t0 ts0 =>
        replace h : (if tokForLvl lvl t0 then
            match parseL fuel (lvl + 1) none ts0 with
            | some (g2, rest2) => parseL fuel lvl (some (combineLvl lvl g g2)) rest2
            | none => none
          else some (g, t0 :: ts0)) = some (f, rest) := h
        split at h
        · cases hp : parseL fuel (lvl + 1) none ts0 with
          | none => rw [hp] at h; cases h
          | some pr =>
            obtain ⟨g2, rest2⟩ := pr
            rw [hp] at h
            rcases ih lvl (some (combineLvl lvl g g2)) rest2 f rest h n hn with
              ⟨g3, hg3, hng⟩ | hmem
            · injection hg3 with hg3
              rw [← hg3] at hng
              have hcomb : n ∈ atomsOf g ∨ n ∈ atomsOf g2 := by
                cases lvl with
                | zero => simpa [combineLvl, atomsOf] using hng
                | succ l =>
                  cases l with
                  | zero => simpa [combineLvl, atomsOf] using hng
                  | succ l2 => simpa [combineLvl, atomsOf] using hng
              rcases hcomb with hng | hng
              · exact Or.inl ⟨g, rfl, hng⟩
              · rcases ih (lvl + 1) none ts0 g2 rest2 hp n hng with ⟨g4, hg4, _⟩ | hmem2
                · cases hg4
                · exact Or.inr (List.mem_cons_of_mem _ hmem2)
            · have hs1 := parseL_rest_subset fuel (lvl + 1) none ts0 g2 rest2 hp
              exact Or.inr (List.mem_cons_of_mem _ (hs1 _ hmem))
        · injection h with h
          rw [← (Prod.mk.injEq ..).mp h |>.1] at hn
          exact Or.inl ⟨g, rfl, hn⟩
    | none =>
      simp only [parseL] at h
      by_cases hl : lvl = 3
      · rw [if_pos hl] at h
        split at h
        · rcases Option.map_eq_some'.mp h with ⟨⟨f0, rest0x⟩, h0, hfr⟩
          injection hfr with hfr1 hfr2
          rw [← hfr1] at hn
          have hn0 : n ∈ atomsOf f0 := by simpa [atomsOf] using hn
          rcases ih 3 none _ f0 rest0x h0 n hn0 with ⟨g4, hg4, _⟩ | hmem
          · cases hg4
          · exact Or.inr (List.mem_cons_of_mem _ hmem)
        · split at h
          · rename_i f0 r heq
            injection h with h
            rw [← (Prod.mk.injEq ..).mp h |>.1] at hn
            rcases ih 0 none _ f0 (Tok.rpar :: r) heq n hn with ⟨g4, hg4, _⟩ | hmem
            · cases hg4
            · exact Or.inr (List.mem_cons_of_mem _ hmem)
          all_goals cases h
        · injection h with h
          rw [← (Prod.mk.injEq ..).mp h |>.1] at hn
          simp only [atomsOf, List.mem_singleton] at hn
          subst hn
          exact Or.inr (List.mem_cons_self _ _)
        all_goals cases h
      · rw [if_neg hl] at h
        cases hp : parseL fuel (lvl + 1) none ts with
        | none => rw [hp] at h; cases h
        | some pr =>
          obtain ⟨f0, rest0⟩ := pr
          rw [hp] at h
          rcases ih lvl (some f0) rest0 f rest h n hn with ⟨g3, hg3, hng⟩ | hmem
          · injection hg3 with hg3
            rw [← hg3] at hng
            rcases ih (lvl + 1) none ts f0 rest0 hp n hng with ⟨g4, hg4, _⟩ | hmem2
            · cases hg4
            · exact Or.inr hmem2
          · exact Or.inr (parseL_rest_subset fuel (lvl + 1) none ts f0 rest0 hp _ hmem)

/-! ### Parser round trip on canonically printed clauses (for claim C7) -/

theorem andCost_cons (cl : List Lit) (cs : List (List Lit)) :
    andCost (cl :: cs) = andCost cs + 7 * cl.length + 4 := rfl

theorem parseU (fuel : Nat) (l : Lit) (rest : List Tok) :
    parseL (fuel + 2) 3 none (litToks l ++ rest) = some (litFormula l, rest) := by
  obtain ⟨n, p⟩ := l
  cases p <;> rfl

theorem parseL_acc_stop (fuel lvl : Nat) (g : Formula) (ts : List Tok)
    (h : tokStops lvl ts = true) :
    parseL (fuel + 1) lvl (some g) ts = some (g, ts) := by
  cases ts with
  | nil => rfl
  | cons t ts0 =>
    have h' : tokForLvl lvl t = false := by
      have h2 : (!tokForLvl lvl t) = true := h
      simpa using h2
    show (if tokForLvl lvl t then
        match parseL fuel (lvl + 1) none ts0 with
        | some (g2, rest2) => parseL fuel lvl (some (combineLvl lvl g g2)) rest2
        | none => none
      else some (g, t :: ts0)) = some (g, t :: ts0)
    rw [h']
    simp

theorem parseS (fuel : Nat) (l : Lit) (rest : List Tok) (h : tokStops 2 rest = true) :
    parseL (fuel + 4) 2 none (litToks l ++ rest) = some (litFormula l, rest) := by
  show (match parseL (fuel + 1 + 2) 3 none (litToks l ++ rest) with
        | some (f, r) => parseL (fuel + 1 + 2) 2 (some f) r
        | none => none) = some (litFormula l, rest)
  rw [parseU (fuel + 1) l rest]
  exact parseL_acc_stop (fuel + 2) 2 (litFormula l) rest h

theorem parseA1 (fuel : Nat) (l : Lit) (rest : List Tok)
    (h1 : tokStops 1 rest = true) (h2 : tokStops 2 rest = true) :
    parseL (fuel + 6) 1 none (litToks l ++ rest) = some (litFormula l, rest) := by
  show (match parseL (fuel + 1 + 4) 2 none (litToks l ++ rest) with
        | some (f, r) => parseL (fuel + 1 + 4) 1 (some f) r
        | none => none) = some (litFormula l, rest)
  rw [parseS (fuel + 1) l rest h2]
  exact parseL_acc_stop (fuel + 4) 1 (litFormula l) rest h1

theorem tokStops_clauseTail1 (ls : List Lit) (rest : List Tok)
    (h : tokStops 1 rest = true) : tokStops 1 (clauseTailToks ls ++ rest) = true := by
  cases ls with
  | nil => exact h
  | cons l ls => rfl

theorem tokStops_clauseTail2 (ls : List Lit) (rest : List Tok)
    (h : tokStops 2 rest = true) : tokStops 2 (clauseTailToks ls ++ rest) = true := by
  cases ls with
  | nil => exact h
  | cons l ls => rfl

theorem tokStops_cnfTail2 (cs : List (List Lit)) (rest : List Tok)
    (h : tokStops 2 rest = true) : tokStops 2 (cnfTailToks cs ++ rest) = true := by
  cases cs with
  | nil => exact h
  | cons c cs => rfl

theorem parseOLoop : ∀ (ls : List Lit) (fuel : Nat) (acc : Formula) (rest : List Tok),
    tokStops 0 rest = true → tokStops 1 rest = true → tokStops 2 rest = true →
    parseL (fuel + (7 * ls.length + 1)) 0 (some acc) (clauseTailToks ls ++ rest) =
      some (chainOp Formula.disj acc (ls.map litFormula), rest)
  | [], fuel, acc, rest, h0, _, _ => parseL_acc_stop fuel 0 acc rest h0
  | l :: ls, fuel, acc, rest, h0, h1, h2 => by
    rw [show fuel + (7 * (l :: ls).length + 1) = fuel + 7 * ls.length + 1 + 6 + 1 from by
      simp only [List.length_cons]; ring]
    simp only [clauseTailToks, List.cons_append, List.append_assoc]
    show (match parseL (fuel + 7 * ls.length + 1 + 6) 1 none
            (litToks l ++ (clauseTailToks ls ++ rest)) with
        | some (g2, rest2) =>
          parseL (fuel + 7 * ls.length + 1 + 6) 0 (some (Formula.disj acc g2)) rest2
        | none => none) =
      some (chainOp Formula.disj acc ((l :: ls).map litFormula), rest)
    rw [parseA1 (fuel + 7 * ls.length + 1) l (clauseTailToks ls ++ rest)
      (tokStops_clauseTail1 ls rest h1) (tokStops_clauseTail2 ls rest h2)]
    rw [show fuel + 7 * ls.length + 1 + 6 = fuel + 6 + (7 * ls.length + 1) from by ring]
    exact parseOLoop ls (fuel + 6) (Formula.disj acc (litFormula l)) rest h0 h1 h2

theorem parseO (fuel : Nat) (l : Lit) (ls : List Lit) (rest : List Tok)
    (h0 : tokStops 0 rest = true) (h1 : tokStops 1 rest = true)
    (h2 : tokStops 2 rest = true) :
    parseL (fuel + (7 * ls.length + 8)) 0 none (clauseToks (l :: ls) ++ rest) =
      some (clauseFormula (l :: ls), rest) := by
  rw [clauseToks_cons, List.append_assoc]
  rw [show fuel + (7 * ls.length + 8) = fuel + 7 * ls.length + 1 + 6 + 1 from by ring]
  show (match parseL (fuel + 7 * ls.length + 1 + 6) 1 none
          (litToks l ++ (clauseTailToks ls ++ rest)) with
      | some (f, r) => parseL (fuel + 7 * ls.length + 1 + 6) 0 (some f) r
      | none => none) = some (clauseFormula (l :: ls), rest)
  rw [parseA1 (fuel + 7 * ls.length + 1) l (clauseTailToks ls ++ rest)
    (tokStops_clauseTail1 ls rest h1) (tokStops_clauseTail2 ls rest h2)]
  rw [show fuel + 7 * ls.length + 1 + 6 = fuel + 6 + (7 * ls.length + 1) from by ring]
  exact parseOLoop ls (fuel + 6) (litFormula l) rest h0 h1 h2

theorem parseCU (fuel : Nat) (l : Lit) (cl : List Lit) (rest : List Tok)
    (h2 : tokStops 2 rest = true) :
    parseL (fuel + (7 * (l :: cl).length + 3)) 2 none (clauseToksP (l :: cl) ++ rest) =
      some (clauseFormula (l :: cl), rest) := by
  cases cl with
  | nil => exact parseS (fuel + 6) l rest h2
  | cons l2 cl2 =>
    rw [show fuel + (7 * (l :: l2 :: cl2).length + 3) =
        fuel + 7 * cl2.length + 15 + 1 + 1 from by
      simp only [List.length_cons]; ring]
    simp only [clauseToksP, List.cons_append, List.append_assoc, List.singleton_append]
    show (match parseL (fuel + 7 * cl2.length + 15 + 1) 3 none
            (Tok.lpar :: (clauseToks (l :: l2 :: cl2) ++ Tok.rpar :: rest)) with
        | some (f, r) => parseL (fuel + 7 * cl2.length + 15 + 1) 2 (some f) r
        | none => none) = some (clauseFormula (l :: l2 :: cl2), rest)
    have hpar : parseL (fuel + 7 * cl2.length + 15 + 1) 3 none
        (Tok.lpar :: (clauseToks (l :: l2 :: cl2) ++ Tok.rpar :: rest)) =
        some (clauseFormula (l :: l2 :: cl2), rest) := by
      show (match parseL (fuel + 7 * cl2.length + 15) 0 none
              (clauseToks (l :: l2 :: cl2) ++ Tok.rpar :: rest) with
          | some (f, Tok.rpar :: r) => some (f, r)
          | _ => none) = some (clauseFormula (l :: l2 :: cl2), rest)
      rw [show fuel + 7 * cl2.length + 15 = fuel + (7 * (l2 :: cl2).length + 8) from by
        simp only [List.length_cons]; ring]
      rw [parseO fuel l (l2 :: cl2) (Tok.rpar :: rest) rfl rfl rfl]
    rw [hpar]
    exact parseL_acc_stop (fuel + 7 * cl2.length + 15) 2 (clauseFormula (l :: l2 :: cl2))
      rest h2

theorem parseAndLoop : ∀ (cs : List (List Lit)) (fuel : Nat) (acc : Formula)
    (rest : List Tok), (∀ cl ∈ cs, cl ≠ []) →
    tokStops 1 rest = true → tokStops 2 rest = true →
    parseL (fuel + andCost cs) 1 (some acc) (cnfTailToks cs ++ rest) =
      some (chainOp Formula.conj acc (cs.map clauseFormula), rest)
  | [], fuel, acc, rest, _, h1, _ => parseL_acc_stop fuel 1 acc rest h1
  | cl :: cs, fuel, acc, rest, hne, h1, h2 => by
    obtain ⟨l, cl2, rfl⟩ : ∃ l cl2, cl = l :: cl2 := by
      cases cl with
      | nil => exact absurd rfl (hne [] (by simp))
      | cons a b => exact ⟨a, b, rfl⟩
    rw [show fuel + andCost ((l :: cl2) :: cs) =
        fuel + andCost cs + (7 * (l :: cl2).length + 3) + 1 from by
      rw [andCost_cons]; ring]
    simp only [cnfTailToks, List.cons_append, List.append_assoc]
    show (match parseL (fuel + andCost cs + (7 * (l :: cl2).length + 3)) 2 none
            (clauseToksP (l :: cl2) ++ (cnfTailToks cs ++ rest)) with
        | some (g2, rest2) =>
          parseL (fuel + andCost cs + (7 * (l :: cl2).length + 3)) 1
            (some (Formula.conj acc g2)) rest2
        | none => none) =
      some (chainOp Formula.conj acc (((l :: cl2) :: cs).map clauseFormula), rest)
    rw [parseCU (fuel + andCost cs) l cl2 (cnfTailToks cs ++ rest)
      (tokStops_cnfTail2 cs rest h2)]
    rw [show fuel + andCost cs + (7 * (l :: cl2).length + 3) =
        fuel + (7 * (l :: cl2).length + 3) + andCost cs from by ring]
    exact parseAndLoop cs (fuel + (7 * (l :: cl2).length + 3))
      (Formula.conj acc (clauseFormula (l :: cl2))) rest
      (fun c hc => hne c (by simp [hc])) h1 h2

theorem parseTop : ∀ (cs : List (List Lit)) (fuel : Nat), cs ≠ [] →
    (∀ cl ∈ cs, cl ≠ []) →
    parseL (fuel + topCost cs) 0 none (cnfToks cs) = some (cnfFormula cs, [])
  | [], _, hne, _ => absurd rfl hne
  | [c], fuel, _, hcl => by
    obtain ⟨l, ls, rfl⟩ : ∃ l ls, c = l :: ls := by
      cases c with
      | nil => exact absurd rfl (hcl [] (by simp))
      | cons a b => exact ⟨a, b, rfl⟩
    have h := parseO fuel l ls [] rfl rfl rfl
    rw [List.append_nil] at h
    exact h
  | c :: c2 :: cs2, fuel, _, hcl => by
    obtain ⟨l, cl2, rfl⟩ : ∃ l cl2, c = l :: cl2 := by
      cases c with
      | nil => exact absurd rfl (hcl [] (by simp))
      | cons a b => exact ⟨a, b, rfl⟩
    rw [cnfToks_multi (l :: cl2) (c2 :: cs2) (by simp)]
    rw [show fuel + topCost ((l :: cl2) :: c2 :: cs2) =
        fuel + (7 * (l :: cl2).length + 3) + andCost (c2 :: cs2) + 1 + 1 from by
      simp only [topCost, List.length_cons]; omega]
    show (match parseL (fuel + (7 * (l :: cl2).length + 3) + andCost (c2 :: cs2) + 1) 1 none
            (clauseToksP (l :: cl2) ++ cnfTailToks (c2 :: cs2)) with
        | some (f, r) =>
          parseL (fuel + (7 * (l :: cl2).length + 3) + andCost (c2 :: cs2) + 1) 0 (some f) r
        | none => none) = some (cnfFormula ((l :: cl2) :: c2 :: cs2), [])
    have h1 : parseL (fuel + (7 * (l :: cl2).length + 3) + andCost (c2 :: cs2) + 1) 1 none
        (clauseToksP (l :: cl2) ++ cnfTailToks (c2 :: cs2)) =
        some (cnfFormula ((l :: cl2) :: c2 :: cs2), []) := by
      show (match parseL (fuel + (7 * (l :: cl2).length + 3) + andCost (c2 :: cs2)) 2 none
              (clauseToksP (l :: cl2) ++ cnfTailToks (c2 :: cs2)) with
          | some (f, r) =>
            parseL (fuel + (7 * (l :: cl2).length + 3) + andCost (c2 :: cs2)) 1 (some f) r
          | none => none) = some (cnfFormula ((l :: cl2) :: c2 :: cs2), [])
      have hcu := parseCU (fuel + andCost (c2 :: cs2)) l cl2 (cnfTailToks (c2 :: cs2)) rfl
      rw [show fuel + andCost (c2 :: cs2) + (7 * (l :: cl2).length + 3) =
          fuel + (7 * (l :: cl2).length + 3) + andCost (c2 :: cs2) from by ring] at hcu
      rw [hcu]
      have hal := parseAndLoop (c2 :: cs2) (fuel + (7 * (l :: cl2).length + 3))
        (clauseFormula (l :: cl2)) [] (fun cl hc => hcl cl (by simp [hc])) rfl rfl
      rw [List.append_nil] at hal
      exact hal
    rw [h1]
    exact parseL_acc_stop (fuel + (7 * (l :: cl2).length + 3) + andCost (c2 :: cs2)) 0
      (cnfFormula ((l :: cl2) :: c2 :: cs2)) [] rfl

/-! ### The printed clauses re-tokenize and re-parse exactly (for claim C7) -/

theorem noIdentHead_cons (t : Tok) (ts : List Tok) :
    noIdentHead (t :: ts) = noIdentHead [t] := by
  cases t <;> rfl

theorem toksOkB_append : ∀ (xs ys : List Tok), toksOkB xs = true → toksOkB ys = true →
    noIdentHead ys = true → toksOkB (xs ++ ys) = true
  | [], _, _, hy, _ => hy
  | Tok.ident n :: xs, ys, hx, hy, hni => by
    have hx' : ((wfNameB n && noIdentHead xs) && toksOkB xs) = true := hx
    rw [Bool.and_eq_true, Bool.and_eq_true] at hx'
    obtain ⟨⟨hwf, hnix⟩, hrest⟩ := hx'
    show ((wfNameB n && noIdentHead (xs ++ ys)) && toksOkB (xs ++ ys)) = true
    rw [Bool.and_eq_true, Bool.and_eq_true]
    refine ⟨⟨hwf, ?_⟩, toksOkB_append xs ys hrest hy hni⟩
    cases xs with
    | nil => exact hni
    | cons x xs2 =>
      rw [List.cons_append, noIdentHead_cons]
      rw [noIdentHead_cons] at hnix
      exact hnix
  | Tok.lpar :: xs, ys, hx, hy, hni => toksOkB_append xs ys hx hy hni
  | Tok.rpar :: xs, ys, hx, hy, hni => toksOkB_append xs ys hx hy hni
  | Tok.amp :: xs, ys, hx, hy, hni => toksOkB_append xs ys hx hy hni
  | Tok.bar :: xs, ys, hx, hy, hni => toksOkB_append xs ys hx hy hni
  | Tok.shr :: xs, ys, hx, hy, hni => toksOkB_append xs ys hx hy hni
  | Tok.tilde :: xs, ys, hx, hy, hni => toksOkB_append xs ys hx hy hni

theorem toksOkB_litToks (l : Lit) (h : wfNameB l.name = true) :
    toksOkB (litToks l) = true := by
  obtain ⟨n, p⟩ := l
  cases p <;> simp [litToks, toksOkB, noIdentHead, h]

theorem toksOkB_clauseTail : ∀ (ls : List Lit), (∀ l ∈ ls, wfNameB l.name = true) →
    toksOkB (clauseTailToks ls) = true ∧ noIdentHead (clauseTailToks ls) = true
  | [], _ => ⟨rfl, rfl⟩
  | l :: ls, h => by
    obtain ⟨ih1, ih2⟩ := toksOkB_clauseTail ls (fun x hx => h x (by simp [hx]))
    refine ⟨?_, rfl⟩
    show toksOkB (litToks l ++ clauseTailToks ls) = true
    exact toksOkB_append _ _ (toksOkB_litToks l (h l (by simp))) ih1 ih2

theorem toksOkB_clauseToks (cl : List Lit) (h : ∀ l ∈ cl, wfNameB l.name = true) :
    toksOkB (clauseToks cl) = true := by
  cases cl with
  | nil => rfl
  | cons l ls =>
    rw [clauseToks_cons]
    obtain ⟨ih1, ih2⟩ := toksOkB_clauseTail ls (fun x hx => h x (by simp [hx]))
    exact toksOkB_append _ _ (toksOkB_litToks l (h l (by simp))) ih1 ih2

theorem toksOkB_clauseToksP (cl : List Lit) (h : ∀ l ∈ cl, wfNameB l.name = true) :
    toksOkB (clauseToksP cl) = true := by
  rcases cl with _ | ⟨l1, _ | ⟨l2, ls⟩⟩
  · rfl
  · exact toksOkB_clauseToks [l1] h
  · show toksOkB (clauseToks (l1 :: l2 :: ls) ++ [Tok.rpar]) = true
    exact toksOkB_append _ _ (toksOkB_clauseToks _ h) rfl rfl

theorem toksOkB_cnfTail : ∀ (cs : List (List Lit)),
    (∀ cl ∈ cs, ∀ l ∈ cl, wfNameB l.name = true) →
    toksOkB (cnfTailToks cs) = true ∧ noIdentHead (cnfTailToks cs) = true
  | [], _ => ⟨rfl, rfl⟩
  | cl :: cs, h => by
    obtain ⟨ih1, ih2⟩ := toksOkB_cnfTail cs (fun c hc => h c (by simp [hc]))
    refine ⟨?_, rfl⟩
    show toksOkB (clauseToksP cl ++ cnfTailToks cs) = true
    exact toksOkB_append _ _ (toksOkB_clauseToksP cl (h cl (by simp))) ih1 ih2

theorem toksOkB_cnfToks (cs : List (List Lit))
    (h : ∀ cl ∈ cs, ∀ l ∈ cl, wfNameB l.name = true) :
    toksOkB (cnfToks cs) = true := by
  rcases cs with _ | ⟨c, _ | ⟨c2, cs2⟩⟩
  · rfl
  · exact toksOkB_clauseToks c (h c (by simp))
  · rw [cnfToks_multi c (c2 :: cs2) (by simp)]
    obtain ⟨ih1, ih2⟩ := toksOkB_cnfTail (c2 :: cs2) (fun cl hc => h cl (by simp [hc]))
    exact toksOkB_append _ _ (toksOkB_clauseToksP c (h c (by simp))) ih1 ih2

/-! ### Every atom name reaching the normaliser is a well-formed identifier -/

theorem tokenize_wf (s : String) (ts : List Tok) (h : tokenize s = some ts) :
    ∀ n, Tok.ident n ∈ ts → wfNameB n = true :=
  tokGo_wf (2 * s.data.length) (TokSt.acc none) s.data ts (by simp [tokStRank]) trivial h

theorem parseFormula_names (s : String) (f : Formula) (h : parseFormula s = some f) :
    ∀ n ∈ atomsOf f, wfNameB n = true := by
  rw [parseFormula] at h
  cases hts : tokenize s with
  | none => rw [hts] at h; cases h
  | some ts =>
    rw [hts] at h
    replace h : (match parseL (parseFuel ts) 0 none ts with
        | some (g, []) => some g
        | _ => none) = some f := h
    cases hp : parseL (parseFuel ts) 0 none ts with
    | none => rw [hp] at h; cases h
    | some pr =>
      obtain ⟨f0, rest⟩ := pr
      rw [hp] at h
      cases rest with
      | cons t r => cases h
      | nil =>
        replace h : some f0 = some f := h
        injection h with h
        subst h
        intro n hn
        rcases parseL_atoms (parseFuel ts) 0 none ts f0 [] hp n hn with ⟨g, hg, _⟩ | hmem
        · cases hg
        · exact tokenize_wf s ts hts n hmem

theorem toClauses_names : ∀ (f : Formula) (b : Bool) (cl : List Lit) (l : Lit),
    cl ∈ toClauses f b → l ∈ cl → l.name ∈ atomsOf f
  | Formula.atom s, b, cl, l, hcl, hl => by
    simp only [toClauses, List.mem_singleton] at hcl
    subst hcl
    simp only [List.mem_singleton] at hl
    subst hl
    simp [atomsOf]
  | Formula.neg f, b, cl, l, hcl, hl => toClauses_names f (!b) cl l hcl hl
  | Formula.conj f g, true, cl, l, hcl, hl => by
    replace hcl : cl ∈ toClauses f true ++ toClauses g true := hcl
    rcases List.mem_append.mp hcl with hm | hm
    · exact List.mem_append.mpr (Or.inl (toClauses_names f true cl l hm hl))
    · exact List.mem_append.mpr (Or.inr (toClauses_names g true cl l hm hl))
  | Formula.conj f g, false, cl, l, hcl, hl => by
    replace hcl : cl ∈ distribOr (toClauses f false) (toClauses g false) := hcl
    obtain ⟨c, d, hc, hd, rfl⟩ := mem_distribOr hcl
    rcases List.mem_append.mp hl with hm | hm
    · exact List.mem_append.mpr (Or.inl (toClauses_names f false c l hc hm))
    · exact List.mem_append.mpr (Or.inr (toClauses_names g false d l hd hm))
  | Formula.disj f g, true, cl, l, hcl, hl => by
    replace hcl : cl ∈ distribOr (toClauses f true) (toClauses g true) := hcl
    obtain ⟨c, d, hc, hd, rfl⟩ := mem_distribOr hcl
    rcases List.mem_append.mp hl with hm | hm
    · exact List.mem_append.mpr (Or.inl (toClauses_names f true c l hc hm))
    · exact List.mem_append.mpr (Or.inr (toClauses_names g true d l hd hm))
  | Formula.disj f g, false, cl, l, hcl, hl => by
    replace hcl : cl ∈ toClauses f false ++ toClauses g false := hcl
    rcases List.mem_append.mp hcl with hm | hm
    · exact List.mem_append.mpr (Or.inl (toClauses_names f false cl l hm hl))
    · exact List.mem_append.mpr (Or.inr (toClauses_names g false cl l hm hl))
  | Formula.impl f g, true, cl, l, hcl, hl => by
    replace hcl : cl ∈ distribOr (toClauses f false) (toClauses g true) := hcl
    obtain ⟨c, d, hc, hd, rfl⟩ := mem_distribOr hcl
    rcases List.mem_append.mp hl with hm | hm
    · exact List.mem_append.mpr (Or.inl (toClauses_names f false c l hc hm))
    · exact List.mem_append.mpr (Or.inr (toClauses_names g true d l hd hm))
  | Formula.impl f g, false, cl, l, hcl, hl => by
    replace hcl : cl ∈ toClauses f true ++ toClauses g false := hcl
    rcases List.mem_append.mp hcl with hm | hm
    · exact List.mem_append.mpr (Or.inl (toClauses_names f true cl l hm hl))
    · exact List.mem_append.mpr (Or.inr (toClauses_names g false cl l hm hl))

theorem normClauses_names (f : Formula) (cl : List Lit) (l : Lit)
    (hcl : cl ∈ normClauses f) (hl : l ∈ cl) : l.name ∈ atomsOf f := by
  rw [normClauses, mem_canonCnf] at hcl
  obtain ⟨cl0, hcl0, rfl⟩ := List.mem_map.mp hcl
  exact toClauses_names f true cl0 l hcl0 (mem_canonClause.mp hl)

/-! ### The default parser fuel covers the canonical print -/

theorem litToks_len (l : Lit) : 1 ≤ (litToks l).length := by
  obtain ⟨n, p⟩ := l
  cases p <;> simp [litToks]

theorem clauseTail_len : ∀ (ls : List Lit), ls.length ≤ (clauseTailToks ls).length
  | [] => by simp [clauseTailToks]
  | l :: ls => by
    have h1 := clauseTail_len ls
    have h2 := litToks_len l
    simp only [clauseTailToks, List.length_cons, List.length_append]
    omega

theorem clauseToks_len (cl : List Lit) : cl.length ≤ (clauseToks cl).length := by
  cases cl with
  | nil => simp [clauseToks, sepToks]
  | cons l ls =>
    rw [clauseToks_cons]
    have h1 := litToks_len l
    have h2 := clauseTail_len ls
    simp only [List.length_cons, List.length_append]
    omega

theorem clauseToksP_len (cl : List Lit) : cl.length ≤ (clauseToksP cl).length := by
  rcases cl with _ | ⟨l, _ | ⟨l2, ls⟩⟩
  · simp
  · exact clauseToks_len [l]
  · show (l :: l2 :: ls).length ≤ (Tok.lpar :: (clauseToks (l :: l2 :: ls) ++ [Tok.rpar])).length
    have h1 := clauseToks_len (l :: l2 :: ls)
    simp only [List.length_cons, List.length_append] at h1 ⊢
    omega

theorem andCost_le : ∀ (cs : List (List Lit)),
    andCost cs ≤ 8 * (cnfTailToks cs).length + 1
  | [] => by simp [andCost, cnfTailToks]
  | cl :: cs => by
    have ih := andCost_le cs
    have hp := clauseToksP_len cl
    rw [andCost_cons]
    simp only [cnfTailToks, List.length_cons, List.length_append]
    omega

theorem fuelBound (cs : List (List Lit)) : topCost cs ≤ parseFuel (cnfToks cs) := by
  rcases cs with _ | ⟨c, _ | ⟨c2, cs2⟩⟩
  · simp [topCost, parseFuel]
  · have h := clauseToks_len c
    rw [show cnfToks [c] = clauseToks c from rfl]
    simp only [topCost, parseFuel]
    omega
  · rw [cnfToks_multi c (c2 :: cs2) (by simp)]
    have h1 := clauseToksP_len c
    have h2 := andCost_le (c2 :: cs2)
    simp only [topCost, parseFuel, List.length_append]
    omega

/-! ### Round trip and idempotence of `convert_to_cnf` -/

theorem parse_render (cs : List (List Lit)) (hne : cs ≠ [])
    (hclne : ∀ cl ∈ cs, cl ≠ [])
    (hwf : ∀ cl ∈ cs, ∀ l ∈ cl, wfNameB l.name = true) :
    parseFormula (renderCnf cs) = some (cnfFormula cs) := by
  have htok : tokenize (renderCnf cs) = some (cnfToks cs) :=
    tokGo_roundtrip (cnfToks cs) (toksOkB_cnfToks cs hwf)
  rw [parseFormula, htok]
  show (match parseL (parseFuel (cnfToks cs)) 0 none (cnfToks cs) with
      | some (f, []) => some f
      | _ => none) = some (cnfFormula cs)
  rw [show parseFuel (cnfToks cs) =
      (parseFuel (cnfToks cs) - topCost cs) + topCost cs from
    (Nat.sub_add_cancel (fuelBound cs)).symm]
  rw [parseTop cs (parseFuel (cnfToks cs) - topCost cs) hne hclne]

theorem convert_to_cnf_idem (s c : String) (h : convert_to_cnf s = Except.ok c) :
    convert_to_cnf c = Except.ok c := by
  rw [convert_to_cnf] at h
  cases hp : parseFormula s with
  | none => rw [hp] at h; cases h
  | some f =>
    rw [hp] at h
    replace h : Except.ok (renderCnf (normClauses f)) = Except.ok c := h
    injection h with h
    subst h
    have hne : normClauses f ≠ [] := canonCnf_ne_nil (toClauses_ne_nil f true)
    have hclne : ∀ cl ∈ normClauses f, cl ≠ [] :=
      mem_canonCnf_ne_nil (mem_toClauses_ne_nil f true)
    have hwf : ∀ cl ∈ normClauses f, ∀ l ∈ cl, wfNameB l.name = true :=
      fun cl hcl l hl => parseFormula_names s f hp l.name (normClauses_names f cl l hcl hl)
    rw [convert_to_cnf]
    show (match parseFormula (renderCnf (normClauses f)) with
        | none => Except.error BErr.malformedFormula
        | some g => Except.ok (renderCnf (normClauses g))) =
      Except.ok (renderCnf (normClauses f))
    rw [parse_render (normClauses f) hne hclne hwf]
    show Except.ok (renderCnf (normClauses (cnfFormula (normClauses f)))) =
      Except.ok (renderCnf (normClauses f))
    rw [normClauses_fixpoint]

/-- C7: normalization is idempotent — whenever `convert_to_cnf` succeeds, running it
again on its own output returns that output unchanged
(`normalize(normalize(x)) = normalize(x)`); and on "p >> q" it returns "~p | q",
whose parse is logically equivalent to the parse of "q | ~p" under every
valuation. -/
theorem C7_normalize_idempotent :
    (∀ x c : String, convert_to_cnf x = Except.ok c → convert_to_cnf c = Except.ok c) ∧
    convert_to_cnf "p >> q" = Except.ok "~p | q" ∧
    (∀ v : String → Bool,
      (parseFormula "~p | q").map (evalF v) = (parseFormula "q | ~p").map (evalF v)) := by
  refine ⟨convert_to_cnf_idem, rfl, ?_⟩
  intro v
  exact congrArg some (Bool.or_comm (!v "p") (v "q"))
